import Mathlib

/-!
Verification development for the Nuclear Workshopper scraper (src/main.py).

The development shallowly embeds the pure and orchestration parts of the
program:

* `fixDF` / `fix_date_format` — the date normalisation routine
  (src/main.py, `fix_date_format`, lines 504-529), modelled over `List Char`
  with the current calendar year passed as an explicit parameter.
  Python's `re.search(r'\b(19|20)\d{2}\b', s)` is modelled by `hasYearB`
  with ASCII word characters (the source operates on ASCII dates).
* `calculate_delay` — the inter-page delay policy (lines 432-441), over `ℚ`.
* `CtrlState` with `resume_scraping`, `handle_auto_pause`,
  `check_for_errors` — the pause/rate-limit flag machine (lines 13-82).
  The `root.after(0, handle_auto_pause)` call is applied synchronously.
* A step interpreter for the run orchestration: `fetch_workshop_items`
  (lines 172-362) with `process_item_batch` (85-169),
  `process_final_pending_items` (365-429).  The asynchronous pause and
  rate-limit flags are supplied by a finite observation schedule: every
  read of `pause_event.is_set()` / `rate_limit_detected` in the source
  consumes one `Sig` from the schedule (an exhausted schedule reads as
  all-clear).  Network results are supplied by oracles indexed by the
  attempt counter.  The `scraper_thread.is_alive()` checks are modelled as
  always true (the run is not cancelled), and console output is dropped.
-/

/-! ### Boolean substring machinery (Python `in`, `str.replace`, `str.split`) -/

/-- Boolean prefix test on character lists. -/
def prefB : List Char → List Char → Bool
  | [], _ => true
  | _ :: _, [] => false
  | a :: as, b :: bs => (a == b) && prefB as bs

/-- Boolean substring (infix) test on character lists; models Python `in`. -/
def infB (pat : List Char) : List Char → Bool
  | [] => prefB pat []
  | l@(_ :: rest) => prefB pat l || infB pat rest

/-- The `' @ '` separator. -/
def sepA : List Char := [' ', '@', ' ']

/-- The `', '` separator. -/
def commaSp : List Char := [',', ' ']

/-- Python `s.replace(' @ ', ', ')`: scan left to right, replacing each
non-overlapping occurrence of `' @ '` by `', '`. -/
def replaceAtSign : List Char → List Char
  | [] => []
  | [c] => [c]
  | [c, d] => [c, d]
  | c :: d :: e :: rest =>
    if c = ' ' ∧ d = '@' ∧ e = ' ' then ',' :: ' ' :: replaceAtSign rest
    else c :: replaceAtSign (d :: e :: rest)

/-- Python `s.split(' @ ')`: greedy left-to-right split on the three-character
separator, empty pieces preserved. -/
def splitSepA : List Char → List (List Char)
  | [] => [[]]
  | [c] => [[c]]
  | [c, d] => [[c, d]]
  | c :: d :: e :: rest =>
    if c = ' ' ∧ d = '@' ∧ e = ' ' then [] :: splitSepA rest
    else
      match splitSepA (d :: e :: rest) with
      | [] => [[c]]
      | p :: ps => (c :: p) :: ps

/-- Python `s.split(', ')`. -/
def splitCS : List Char → List (List Char)
  | [] => [[]]
  | [c] => [[c]]
  | c :: d :: rest =>
    if c = ',' ∧ d = ' ' then [] :: splitCS rest
    else
      match splitCS (d :: rest) with
      | [] => [[c]]
      | p :: ps => (c :: p) :: ps

/-- Python `', '.join(parts)`. -/
def interC : List (List Char) → List Char
  | [] => []
  | [p] => p
  | p :: q :: ps => p ++ ',' :: ' ' :: interC (q :: ps)

/-! ### Decimal rendering of the year (Python `str(year)` / f-string) -/

/-- One decimal digit as a character. -/
def digChar (d : Nat) : Char :=
  if d = 0 then '0' else if d = 1 then '1' else if d = 2 then '2'
  else if d = 3 then '3' else if d = 4 then '4' else if d = 5 then '5'
  else if d = 6 then '6' else if d = 7 then '7' else if d = 8 then '8' else '9'

/-- Fuelled most-significant-first decimal digit accumulation. -/
def natCharsGo : Nat → Nat → List Char → List Char
  | 0, _, acc => acc
  | fuel + 1, n, acc =>
    if n < 10 then digChar n :: acc
    else natCharsGo fuel (n / 10) (digChar (n % 10) :: acc)

/-- Decimal digits of a natural number, as Python `str(n)`. -/
def natChars (n : Nat) : List Char := natCharsGo (n + 1) n []

/-! ### The year regex and the year-range scan -/

/-- ASCII word character, modelling `\w` in the source's regex use. -/
def isWordCharB (c : Char) : Bool := c.isAlphanum || c = '_'

/-- Does a match of `(19|20)\d{2}` with word boundaries start at the current
position?  `prev` is the character before the position (none at the start). -/
def yearHereB (prev : Option Char) (c : Char) (rest : List Char) : Bool :=
  match rest with
  | d1 :: d2 :: d3 :: rest2 =>
    (match prev with | none => true | some p => !isWordCharB p)
      && ((c == '1' && d1 == '9') || (c == '2' && d1 == '0'))
      && d2.isDigit && d3.isDigit
      && (match rest2 with | [] => true | e :: _ => !isWordCharB e)
  | _ => false

/-- Scan for `\b(19|20)\d{2}\b` anywhere in the list. -/
def hasYearAux : Option Char → List Char → Bool
  | _, [] => false
  | prev, c :: rest => yearHereB prev c rest || hasYearAux (some c) rest

/-- Python `re.search(r'\b(19|20)\d{2}\b', s)` as a Boolean
(ASCII word characters). -/
def hasYearB (s : List Char) : Bool := hasYearAux none s

/-- Python `any(str(year) in date_string for year in range(1900, 2100))`. -/
def anyYearB (s : List Char) : Bool :=
  (List.range' 1900 200).any (fun y => infB (natChars y) s)

/-! ### `fix_date_format` (src/main.py lines 504-529) -/

def unknownS : List Char := "Unknown".data

def qkbS : List Char := "? KB".data

/-- Model of `fix_date_format` over character lists, with the current calendar year
(`datetime.now().year` in the source) passed explicitly.  The two `match`
fallbacks are unreachable when the corresponding branch guard holds (a split
on a separator that occurs in the string yields at least two pieces); for the
`', '` branch the source's `len(parts) >= 2` test falls through to the final
`return` otherwise, which is what the fallback does. -/
def fixDF (year : Nat) (s : List Char) : List Char :=
  if s = unknownS ∨ s = qkbS then s
  else if hasYearB s then replaceAtSign s
  else if infB sepA s then
    match splitSepA s with
    | p0 :: p1 :: _ => p0 ++ commaSp ++ natChars year ++ commaSp ++ p1
    | _ => replaceAtSign s
  else if infB commaSp s && !anyYearB s then
    match splitCS s with
    | p0 :: p1 :: rest => p0 ++ commaSp ++ natChars year ++ commaSp ++ interC (p1 :: rest)
    | _ => replaceAtSign s
  else replaceAtSign s

/-- Model of `fix_date_format` on strings. -/
def fix_date_format (year : Nat) (s : String) : String := ⟨fixDF year s.data⟩

/-! ### `calculate_delay` (src/main.py lines 432-441) -/

/-- The inter-page delay policy, in seconds. -/
def calculate_delay (page_number : Nat) : ℚ :=
  if page_number > 15 then 3
  else if page_number > 10 then 2.5
  else if page_number > 5 then 2
  else 1

/-! ### The pause/rate-limit flag machine (src/main.py lines 13-82) -/

/-- The four shared control flags of the source: `is_paused`,
`pause_event` (set/cleared), `rate_limit_detected`, `auto_paused`. -/
structure CtrlState where
  is_paused : Bool
  pauseEventSet : Bool
  rate_limit_detected : Bool
  auto_paused : Bool
deriving DecidableEq, Repr

/-- Model of `resume_scraping` (lines 26-43): a no-op unless `is_paused`; otherwise
clears `is_paused`, `pause_event`, `auto_paused`, and — under its own
conditional — `rate_limit_detected`. -/
def resume_scraping (c : CtrlState) : CtrlState :=
  if c.is_paused then
    let c1 : CtrlState :=
      { c with is_paused := false, pauseEventSet := false, auto_paused := false }
    if c1.rate_limit_detected then { c1 with rate_limit_detected := false } else c1
  else c

/-- Model of `handle_auto_pause` (lines 46-53): sets `is_paused` and `pause_event`. -/
def handle_auto_pause (c : CtrlState) : CtrlState :=
  { c with is_paused := true, pauseEventSet := true }

/-- Python `pat in s` on strings. -/
def strContains (s pat : String) : Bool := infB pat.data s.data

/-- One drained message of `check_for_errors` (lines 60-75): a message
containing `"429"` or `"Too Many Requests"` sets `rate_limit_detected` and
`auto_paused` and, when not already paused, triggers `handle_auto_pause`
(scheduled via `root.after(0, ...)` in the source, applied synchronously
here). -/
def check_for_errors_step (c : CtrlState) (msg : String) : CtrlState :=
  if strContains msg "429" || strContains msg "Too Many Requests" then
    let c1 := { c with rate_limit_detected := true, auto_paused := true }
    if !c1.is_paused then handle_auto_pause c1 else c1
  else c

/-- Model of `check_for_errors` (lines 56-78): drain the error queue in order. -/
def check_for_errors (msgs : List String) (c : CtrlState) : CtrlState :=
  msgs.foldl check_for_errors_step c

/-! ### Run orchestration data model -/

/-- One discovered `.workshopItem` element of a listing page: an opaque
identity plus whether its `<a>` anchor (the detail link) is present
(`item.select_one('a')` can return `None`, lines 111-112/120-121/394-395). -/
structure Item where
  id : Nat
  hasLink : Bool
deriving DecidableEq, Repr

/-- A `pending_items` entry: the source stores `(item, page_num, i)` tuples
(lines 152, 166, 310). -/
structure PendingEntry where
  item : Item
  page : Nat
  idx : Nat
deriving DecidableEq, Repr

/-- One joint observation of the two asynchronous flags, as read by the
worker: `pause_event.is_set()` and `rate_limit_detected`. -/
structure Sig where
  paused : Bool
  rate : Bool
deriving DecidableEq, Repr

/-- Result of one listing-page fetch attempt (`requests.get` +
`raise_for_status`, lines 281-360): a parsed list of `.workshopItem`
elements, an `HTTPError` with its status code, a non-HTTP
`RequestException`, or an unexpected exception. -/
inductive FetchRes where
  | ok : List Item → FetchRes
  | httpErr : Nat → FetchRes
  | netErr : FetchRes
  | unexpected : FetchRes
deriving DecidableEq, Repr

/-- External oracles: the result of the n-th listing-page fetch attempt and
the outcome of the n-th item-detail fetch attempt. -/
structure Env where
  pageRes : Nat → FetchRes
  detailOk : Nat → Bool

/-- Worker-visible mutable state, plus ghost logs of observable events.
`sched` is the remaining flag-observation schedule; `pending` is
`pending_items`; `errors` is the `error_queue` contents in put order.
`fetchLog` (pages attempted), `pagesDone` (pages completed at line 331),
`discovered` (items returned by successful page fetches, line 285),
`sleepLog` (inter-page `time.sleep` calls, line 279) and `pendLog`
(every append to `pending_items`) are instrumentation. -/
structure St where
  sched : List Sig
  pageFetches : Nat
  detailFetches : Nat
  pending : List PendingEntry
  errors : List String
  fetchLog : List Nat
  pagesDone : List Nat
  discovered : List Item
  sleepLog : List ℚ
  pendLog : List PendingEntry
deriving DecidableEq, Repr

/-- Read the two flags once, consuming one schedule entry (an exhausted
schedule reads as all-clear). -/
def observe (st : St) : Sig × St :=
  match st.sched with
  | [] => (⟨false, false⟩, st)
  | s :: rest => (s, { st with sched := rest })

/-- A `while cond: time.sleep(0.5)` poll loop: consume observations while
the condition holds. -/
def dropObs (f : Sig → Bool) : List Sig → List Sig
  | [] => []
  | s :: rest => if f s then dropObs f rest else rest

/-- The state after such a poll loop. -/
def waitWhile (f : Sig → Bool) (st : St) : St :=
  { st with sched := dropObs f st.sched }

/-- Model of `fetch_item_details` (lines 450-501): abstractly, check the flags first
(line 452) and return `None` if blocking; otherwise consume one detail-fetch
attempt whose success is decided by the oracle.  A successful fetch yields
the record of the item (records are identified with their originating item
here); a failed one puts an error message and yields `None`. -/
def fetch_item_details (env : Env) (it : Item) (st : St) : Option Item × St :=
  let (sig, st1) := observe st
  if sig.paused || sig.rate then (none, st1)
  else
    let n := st1.detailFetches
    let st2 := { st1 with detailFetches := n + 1 }
    if env.detailOk n then (some it, st2)
    else (none, { st2 with errors := st2.errors ++ ["item detail fetch failed"] })

/-- Body of `process_item_batch` with `is_pending=False` (lines 85-169):
for each item, poll while paused or rate-limited (lines 93-96), then — only
if the item has a detail link (line 125; items without a link are silently
skipped, there is no `else`) — fetch details; a success is appended to the
results, a failure is appended to `pending_items` as `(item, page, i)` with
the batch-local index `i` (line 152). -/
def process_item_batch_go (env : Env) (page : Nat) :
    List Item → Nat → St → List Item × St
  | [], _, st => ([], st)
  | it :: rest, i, st =>
    let st1 := waitWhile (fun s => s.paused || s.rate) st
    if it.hasLink then
      match fetch_item_details env it st1 with
      | (some r, st2) =>
        let (rs, st3) := process_item_batch_go env page rest (i + 1) st2
        (r :: rs, st3)
      | (none, st2) =>
        let e : PendingEntry := ⟨it, page, i⟩
        process_item_batch_go env page rest (i + 1)
          { st2 with pending := st2.pending ++ [e], pendLog := st2.pendLog ++ [e] }
    else
      process_item_batch_go env page rest (i + 1) st1

/-- Model of `process_item_batch(batch, page, is_pending=False)`. -/
def process_item_batch (env : Env) (batch : List Item) (page : Nat) (st : St) :
    List Item × St :=
  process_item_batch_go env page batch 0 st

/-- Model of `process_item_batch` with `is_pending=True` (lines 101-114, 149-150,
163): items are `(item, page, idx)` tuples; a failure re-appends the tuple
itself. -/
def process_item_batch_retry (env : Env) :
    List PendingEntry → St → List Item × St
  | [], st => ([], st)
  | e :: rest, st =>
    let st1 := waitWhile (fun s => s.paused || s.rate) st
    if e.item.hasLink then
      match fetch_item_details env e.item st1 with
      | (some r, st2) =>
        let (rs, st3) := process_item_batch_retry env rest st2
        (r :: rs, st3)
      | (none, st2) =>
        process_item_batch_retry env rest
          { st2 with pending := st2.pending ++ [e], pendLog := st2.pendLog ++ [e] }
    else
      process_item_batch_retry env rest st1

/-- Split a list into consecutive batches of 4 (`batch_size = 4`,
lines 238-240 and 302-304). -/
def chunksAux : List α → List α → Nat → List (List α)
  | [], acc, _ => if acc.isEmpty then [] else [acc]
  | a :: rest, acc, k =>
    if k ≤ 1 then (acc ++ [a]) :: chunksAux rest [] 4
    else chunksAux rest (acc ++ [a]) (k - 1)

def chunks4 (l : List α) : List (List α) := chunksAux l [] 4

/-- Insertion sort on page numbers, modelling Python `sorted(keys)`. -/
def insertNat (n : Nat) : List Nat → List Nat
  | [] => [n]
  | m :: rest => if n ≤ m then n :: m :: rest else m :: insertNat n rest

def sortNat : List Nat → List Nat
  | [] => []
  | n :: rest => insertNat n (sortNat rest)

/-- The sorted distinct origin pages of the drained entries
(`sorted(pending_by_page.keys())`, line 231). -/
def drainKeys (retry : List PendingEntry) : List Nat :=
  sortNat (retry.map (fun e => e.page)).dedup

/-- Batch loop of the pending-drain section (lines 239-259): before each
batch of 4, one flag check (line 243); if blocking, the whole batch is
re-appended to `pending_items` and skipped (`continue`), else it is
processed in retry mode and its results extended onto the run's items. -/
def drain_batches (env : Env) :
    List (List PendingEntry) → List Item → St → List Item × St
  | [], items, st => (items, st)
  | b :: bs, items, st =>
    let (sig, st1) := observe st
    if sig.paused || sig.rate then
      drain_batches env bs items
        { st1 with pending := st1.pending ++ b, pendLog := st1.pendLog ++ b }
    else
      let (rs, st2) := process_item_batch_retry env b st1
      drain_batches env bs (items ++ rs) st2

/-- Page loop of the pending-drain section (lines 231-259): origin pages in
ascending order, each page's entries in batches of 4. -/
def drain_pages (env : Env) (retry : List PendingEntry) :
    List Nat → List Item → St → List Item × St
  | [], items, st => (items, st)
  | k :: ks, items, st =>
    let (items2, st2) :=
      drain_batches env (chunks4 (retry.filter (fun e => e.page == k))) items st
    drain_pages env retry ks items2 st2

/-- The whole pending-drain section (lines 210-264): if `pending_items` is
non-empty, snapshot and clear it, group by origin page, replay pages in
ascending order.  (`processing_pending` is always false at the check in this
single-worker model, so it is omitted; all entries are 3-tuples, so the
`isinstance` filter of line 224 keeps everything.) -/
def drain_pending (env : Env) (items : List Item) (st : St) : List Item × St :=
  if st.pending = [] then (items, st)
  else
    let retry := st.pending
    drain_pages env retry (drainKeys retry) items { st with pending := [] }

/-- Model of the `process_final_pending_items` body (lines 380-421): one pass over the
snapshot; poll while blocked; entries with a link get one more detail fetch —
success appended to the run's items, failure re-appended to
`pending_items`; entries without a link are silently dropped (no `else` at
line 397). -/
def process_final_go (env : Env) :
    List PendingEntry → List Item → St → List Item × St
  | [], items, st => (items, st)
  | e :: rest, items, st =>
    let st1 := waitWhile (fun s => s.paused || s.rate) st
    if e.item.hasLink then
      match fetch_item_details env e.item st1 with
      | (some r, st2) => process_final_go env rest (items ++ [r]) st2
      | (none, st2) =>
        process_final_go env rest items
          { st2 with pending := st2.pending ++ [e], pendLog := st2.pendLog ++ [e] }
    else
      process_final_go env rest items st1

/-- Model of `process_final_pending_items` (lines 365-429). -/
def process_final_pending_items (env : Env) (items : List Item) (st : St) :
    List Item × St :=
  if st.pending = [] then (items, st)
  else process_final_go env st.pending items { st with pending := [] }

/-- Error-queue messages put by `fetch_workshop_items`. -/
def err429 (page : Nat) : String :=
  "429 Too Many Requests on page " ++ toString page

def errHttp (code page : Nat) : String :=
  "HTTP Error " ++ toString code ++ " on page " ++ toString page

def errNet (page : Nat) : String :=
  "Request failed on page " ++ toString page

def errUnexpected (page : Nat) : String :=
  "Unexpected error on page " ++ toString page

/-- The inter-page sleep actually performed (lines 274-279): the computed
delay is only waited when it exceeds 1 second. -/
def delayLog (page : Nat) : List ℚ :=
  if 1 < calculate_delay page then [calculate_delay page] else []

/-- How a run ends: a normal `return items` after the zero-items page
(`Success`), a `return items` from a fatal error handler, or interpreter
fuel exhaustion (the page loop is unbounded in the source). -/
inductive Term where
  | success : Term
  | fatal : Term
  | fuelOut : Term
deriving DecidableEq, Repr

structure Outcome where
  items : List Item
  st : St
  term : Term
deriving DecidableEq, Repr

/-- The list `[(item, page, base), (item, page, base+1), ...]` for a batch. -/
def enumPend (page : Nat) : Nat → List Item → List PendingEntry
  | _, [] => []
  | base, it :: rest => ⟨it, page, base⟩ :: enumPend page (base + 1) rest

/-- The page-batch loop of a successful non-empty page (lines 302-324):
before each batch of 4, one flag check (line 307); if blocking, every item
of the batch is appended to `pending_items` as `(item, page, i+j)` with the
page-global index (line 310) and the batch skipped; otherwise the batch is
processed and its results extended onto the items. -/
def process_page_batches (env : Env) (page : Nat) :
    List (List Item) → Nat → List Item → St → List Item × St
  | [], _, items, st => (items, st)
  | c :: cs, base, items, st =>
    let (sig, st1) := observe st
    if sig.paused || sig.rate then
      let newPend := enumPend page base c
      process_page_batches env page cs (base + c.length) items
        { st1 with pending := st1.pending ++ newPend, pendLog := st1.pendLog ++ newPend }
    else
      let (rs, st2) := process_item_batch env c page st1
      process_page_batches env page cs (base + c.length) (items ++ rs) st2


/-- The main page-walking loop of `fetch_workshop_items` (lines 178-362),
with explicit fuel bounding the number of iterations:

1. one `pause_event` check (line 180), polling while set (lines 188-194);
2. one `rate_limit_detected` check (line 197), polling while set
   (lines 202-205);
3. the pending-drain section (lines 210-264);
4. the inter-page delay (lines 274-279, waited only when `> 1`);
5. the page fetch (line 281), dispatched on its result:
   * an empty item list: run the final pending pass if anything is pending
     (lines 287-299) and terminate successfully;
   * a non-empty list: process it in batches of 4 and advance the cursor
     (lines 301-334);
   * HTTP 429: put an error, poll while paused or rate-limited
     (lines 336-346), retry the same page;
   * any other HTTP error: put an error and return the items accumulated so
     far (lines 347-349);
   * a non-HTTP request failure: put an error, poll while paused
     (lines 350-357), retry the same page;
   * an unexpected exception: put an error and return (lines 358-360). -/
def fetch_workshop_items_go (env : Env) :
    Nat → Nat → List Item → St → Outcome
  | 0, _, items, st => ⟨items, st, .fuelOut⟩
  | fuel + 1, page, items, st =>
    let (sig1, st1) := observe st
    let st2 := if sig1.paused then waitWhile (fun s => s.paused) st1 else st1
    let (sig2, st3) := observe st2
    let st4 := if sig2.rate then waitWhile (fun s => s.rate) st3 else st3
    let (items1, st5) := drain_pending env items st4
    let st6 := { st5 with sleepLog := st5.sleepLog ++ delayLog page }
    let n := st6.pageFetches
    let st7 := { st6 with pageFetches := n + 1, fetchLog := st6.fetchLog ++ [page] }
    match env.pageRes n with
    | .ok ws =>
      let st8 := { st7 with discovered := st7.discovered ++ ws }
      if ws.isEmpty then
        let (items2, st9) := process_final_pending_items env items1 st8
        ⟨items2, st9, .success⟩
      else
        let (items2, st9) := process_page_batches env page (chunks4 ws) 0 items1 st8
        let st10 := { st9 with pagesDone := st9.pagesDone ++ [page] }
        fetch_workshop_items_go env fuel (page + 1) items2 st10
    | .httpErr code =>
      if code = 429 then
        let stE := { st7 with errors := st7.errors ++ [err429 page] }
        let stW := waitWhile (fun s => s.paused || s.rate) stE
        fetch_workshop_items_go env fuel page items1 stW
      else
        ⟨items1, { st7 with errors := st7.errors ++ [errHttp code page] }, .fatal⟩
    | .netErr =>
      let stE := { st7 with errors := st7.errors ++ [errNet page] }
      let stW := waitWhile (fun s => s.paused) stE
      fetch_workshop_items_go env fuel page items1 stW
    | .unexpected =>
      ⟨items1, { st7 with errors := st7.errors ++ [errUnexpected page] }, .fatal⟩

/-- Fresh worker state with a given flag-observation schedule. -/
def initSt (sched : List Sig) : St :=
  { sched := sched, pageFetches := 0, detailFetches := 0, pending := [],
    errors := [], fetchLog := [], pagesDone := [], discovered := [],
    sleepLog := [], pendLog := [] }

/-- Model of `fetch_workshop_items` as started by `run_scraper`/`main_process`
(lines 689-753): page cursor starts at 1, no items collected, empty retry
queue. -/
def fetch_workshop_items (env : Env) (sched : List Sig) (fuel : Nat) : Outcome :=
  fetch_workshop_items_go env fuel 1 [] (initSt sched)

/-! ### Concrete scenario environments used by the witnesses and
counterexamples -/

/-- An item whose `<a>` anchor is present. -/
def linkedItem (n : Nat) : Item := ⟨n, true⟩

/-- An item whose `<a>` anchor is missing. -/
def bareItem (n : Nat) : Item := ⟨n, false⟩

/-- Page 1 holds a single link-less item; page 2 is empty; all detail
fetches would succeed. -/
def envBare : Env :=
  { pageRes := fun n => if n = 0 then .ok [bareItem 0] else .ok []
    detailOk := fun _ => true }

/-- Every page fetch yields an empty page; all detail fetches succeed. -/
def envEmptyPages : Env :=
  { pageRes := fun _ => .ok [], detailOk := fun _ => true }

/-- A pause observed exactly at the third item's pre-item check of a
four-item batch, cleared at the next poll; all other observations clear. -/
def schedMidBatch : List Sig :=
  [⟨false, false⟩, ⟨false, false⟩, ⟨false, false⟩, ⟨false, false⟩,
   ⟨true, false⟩, ⟨false, false⟩, ⟨false, false⟩, ⟨false, false⟩,
   ⟨false, false⟩]

/-- Page 1 yields one item; page 2's first fetch is rejected with HTTP 429
and its second succeeds with one item; page 3 is empty. -/
def envRateLimited : Env :=
  { pageRes := fun n =>
      if n = 0 then .ok [linkedItem 1]
      else if n = 1 then .httpErr 429
      else if n = 2 then .ok [linkedItem 2]
      else .ok []
    detailOk := fun _ => true }

/-- Observation schedule for `envRateLimited`: all clear until the 429,
then a rate-limit auto-pause observed for two polls and cleared by the
simulated resume. -/
def schedRateLimited : List Sig :=
  [⟨false, false⟩, ⟨false, false⟩, ⟨false, false⟩, ⟨false, false⟩,
   ⟨false, false⟩, ⟨false, false⟩, ⟨false, false⟩,
   ⟨false, true⟩, ⟨true, true⟩, ⟨false, false⟩]

/-- A pause observed at the batch pre-check of page 1's only batch (third
observation), never cleared before the schedule runs out. -/
def schedBatchPause : List Sig :=
  [⟨false, false⟩, ⟨false, false⟩, ⟨true, false⟩]

/-- Pages 1 and 2 yield items; page 3's fetch fails with HTTP 500. -/
def envFatalPage3 : Env :=
  { pageRes := fun n =>
      if n = 0 then .ok [linkedItem 1, linkedItem 2]
      else if n = 1 then .ok [linkedItem 3]
      else .httpErr 500
    detailOk := fun _ => true }

/-- Page 1's first fetch fails with a transient network error; its second
attempt yields an empty page. -/
def envTransient : Env :=
  { pageRes := fun n => if n = 0 then .netErr else .ok []
    detailOk := fun _ => true }

/-- An all-clear flag observation. -/
def obsClear : Sig := ⟨false, false⟩

/-- A paused (not rate-limited) flag observation. -/
def obsPaused : Sig := ⟨true, false⟩

/-- Schedule for `envBare` under which page 1's link-less item is enqueued
as pending by the batch pre-check, re-enqueued whole by the drain pre-check
of the next iteration, and is therefore still pending when the empty page 2
is fetched — so the final pending pass receives it. -/
def schedFinalDrop : List Sig :=
  [obsClear, obsClear, obsPaused, obsClear, obsClear, obsPaused, obsClear]

/-- A worker state holding one link-carrying and one link-less pending
entry, used to exercise the final pending pass. -/
def stFinalDemo : St :=
  { sched := [], pageFetches := 0, detailFetches := 0,
    pending := [⟨⟨7, true⟩, 1, 0⟩, ⟨⟨8, false⟩, 1, 1⟩], errors := [],
    fetchLog := [], pagesDone := [], discovered := [], sleepLog := [],
    pendLog := [] }

/-! ### Identity multisets for the no-loss accounting -/

/-- Multiset of identities of collected records. -/
def recIds (l : List Item) : Multiset Nat := ↑(l.map Item.id)

/-- Multiset of identities of link-carrying pending entries. -/
def pendLinkedIds (l : List PendingEntry) : Multiset Nat :=
  ↑((l.filter (fun e => e.item.hasLink)).map (fun e => e.item.id))

/-- Multiset of identities of link-carrying items. -/
def linkedIds (l : List Item) : Multiset Nat :=
  ↑((l.filter Item.hasLink).map Item.id)

/-- The state components never touched by the item-processing helpers:
only the page loop itself modifies them. -/
def stFrame (a b : St) : Prop :=
  a.pageFetches = b.pageFetches ∧ a.fetchLog = b.fetchLog ∧
  a.pagesDone = b.pagesDone ∧ a.discovered = b.discovered ∧
  a.sleepLog = b.sleepLog

/-! ## Lemmas about the substring machinery -/

theorem prefB_iff (p l : List Char) : prefB p l = true ↔ p <+: l := by
  induction p generalizing l with
  | nil => simp [prefB]
  | cons a as ih =>
    cases l with
    | nil => simp [prefB]
    | cons b bs => simp [prefB, List.cons_prefix_cons, ih]

theorem infB_iff (p l : List Char) : infB p l = true ↔ p <:+: l := by
  induction l with
  | nil =>
    simp only [infB, prefB_iff]
    constructor
    · intro h
      exact h.isInfix
    · rintro ⟨u, v, huv⟩
      have : u = [] ∧ p = [] := by
        constructor
        · cases u with
          | nil => rfl
          | cons x xs => simp at huv
        · cases u with
          | nil =>
            cases p with
            | nil => rfl
            | cons y ys => simp at huv
          | cons x xs => simp at huv
      simp [this.2]
  | cons c rest ih =>
    simp [infB, prefB_iff, ih, List.infix_cons_iff]

theorem replaceAtSign_eq_self (l : List Char) (h : infB sepA l = false) :
    replaceAtSign l = l := by
  induction l using replaceAtSign.induct with
  | case1 => rfl
  | case2 c => rfl
  | case3 c d => rfl
  | case4 c d e rest hcond ih =>
    exfalso
    obtain ⟨rfl, rfl, rfl⟩ := hcond
    simp [infB, prefB, sepA] at h
  | case5 c d e rest hcond ih =>
    rw [replaceAtSign, if_neg hcond]
    have h2 : infB sepA (d :: e :: rest) = false := by
      simp only [infB, Bool.or_eq_false_iff] at h ⊢
      exact h.2
    rw [ih h2]

theorem splitCS_ne_nil (l : List Char) : splitCS l ≠ [] := by
  induction l using splitCS.induct <;> simp_all [splitCS]
  · split <;> simp

theorem interC_splitCS (l : List Char) : interC (splitCS l) = l := by
  induction l using splitCS.induct with
  | case1 => rfl
  | case2 c => rfl
  | case3 c d rest hcond ih =>
    obtain ⟨rfl, rfl⟩ := hcond
    rcases hq : splitCS rest with _ | ⟨q, qs⟩
    · exact absurd hq (splitCS_ne_nil rest)
    · rw [hq] at ih
      simp only [splitCS, if_pos (⟨rfl, rfl⟩ : (',' : Char) = ',' ∧ (' ' : Char) = ' ')]
      rw [hq]
      simpa [interC] using ih
  | case4 c d rest hcond hnil ih => exact absurd hnil (splitCS_ne_nil _)
  | case5 c d rest hcond p ps hsplit ih =>
    rw [hsplit] at ih
    have hstep : splitCS (c :: d :: rest) = (c :: p) :: ps := by
      rw [splitCS, if_neg hcond, hsplit]
    rw [hstep]
    cases ps with
    | nil =>
      simp only [interC] at ih ⊢
      rw [ih]
    | cons q qs =>
      simp only [interC] at ih ⊢
      rw [← ih]
      simp

theorem digChar_isDigit (d : Nat) : (digChar d).isDigit = true := by
  unfold digChar
  split_ifs <;> decide

theorem natCharsGo_digits (fuel : Nat) :
    ∀ (n : Nat) (acc : List Char), (∀ c ∈ acc, c.isDigit = true) →
      ∀ c ∈ natCharsGo fuel n acc, c.isDigit = true := by
  induction fuel with
  | zero => intro n acc hacc c hc; exact hacc c hc
  | succ f ih =>
    intro n acc hacc c hc
    simp only [natCharsGo] at hc
    by_cases hn : n < 10
    · rw [if_pos hn] at hc
      rcases List.mem_cons.mp hc with hc | hc
      · exact hc ▸ digChar_isDigit n
      · exact hacc c hc
    · rw [if_neg hn] at hc
      refine ih _ _ ?_ c hc
      intro x hx
      rcases List.mem_cons.mp hx with hx | hx
      · exact hx ▸ digChar_isDigit _
      · exact hacc x hx

theorem natChars_digits (n : Nat) : ∀ c ∈ natChars n, c.isDigit = true :=
  natCharsGo_digits _ _ [] (by simp)

theorem at_not_mem_natChars (n : Nat) : '@' ∉ natChars n := by
  intro h
  have := natChars_digits n '@' h
  simp at this

theorem prefix_of_append_cons {pat v a b : List Char} {c : Char} (hc : c ∉ pat)
    (h : pat ++ v = a ++ c :: b) : pat <+: a := by
  induction pat generalizing a with
  | nil => exact List.nil_prefix
  | cons p ps ih =>
    cases a with
    | nil =>
      simp only [List.cons_append, List.nil_append, List.cons.injEq] at h
      exact absurd (h.1 ▸ List.mem_cons_self p ps) hc
    | cons x xs =>
      simp only [List.cons_append, List.cons.injEq] at h
      rw [List.cons_prefix_cons]
      refine ⟨h.1, ih (fun hm => hc (List.mem_cons_of_mem p hm)) h.2⟩

theorem infix_append_cons_split {pat a b : List Char} {c : Char} (hc : c ∉ pat)
    (h : pat <:+: a ++ c :: b) : pat <:+: a ∨ pat <:+: b := by
  obtain ⟨u, v, huv⟩ := h
  induction u generalizing a with
  | nil =>
    simp only [List.nil_append] at huv
    exact Or.inl (prefix_of_append_cons hc huv).isInfix
  | cons x xs ih =>
    cases a with
    | nil =>
      simp only [List.cons_append, List.nil_append, List.cons.injEq] at huv
      exact Or.inr ⟨xs, v, huv.2⟩
    | cons y ys =>
      simp only [List.cons_append, List.cons.injEq] at huv
      rcases ih huv.2 with h1 | h1
      · exact Or.inl (List.infix_cons h1)
      · exact Or.inr h1

theorem stamped_no_sep {y : Nat} {p0 T s : List Char}
    (hs : ¬ sepA <:+: s) (hdecomp : s = p0 ++ ',' :: ' ' :: T) :
    ¬ sepA <:+: (p0 ++ ',' :: ' ' :: (natChars y ++ ',' :: ' ' :: T)) := by
  intro h
  rcases infix_append_cons_split (by decide : (',' : Char) ∉ sepA) h with h1 | h1
  · have hp0 : p0 <:+: s := by
      rw [hdecomp]
      exact (List.prefix_append _ _).isInfix
    exact hs (h1.trans hp0)
  · have hre : (' ' :: (natChars y ++ ',' :: ' ' :: T))
        = (' ' :: natChars y) ++ ',' :: (' ' :: T) := by simp
    rw [hre] at h1
    rcases infix_append_cons_split (by decide : (',' : Char) ∉ sepA) h1 with h2 | h2
    · have hat : ('@' : Char) ∈ ' ' :: natChars y := h2.subset (by decide)
      rcases List.mem_cons.mp hat with h3 | h3
      · exact absurd h3 (by decide)
      · exact at_not_mem_natChars y h3
    · rcases List.infix_cons_iff.mp h2 with h3 | h3
      · simp only [sepA] at h3
        have h4 := (List.cons_prefix_cons.mp h3).2
        obtain ⟨t2, ht⟩ := h4
        apply hs
        rw [hdecomp, ← ht]
        exact ⟨p0 ++ [','], t2, by simp [sepA]⟩
      · have hT : T <:+: s := by
          rw [hdecomp]
          exact ⟨p0 ++ [',', ' '], [], by simp⟩
        exact hs (h3.trans hT)

theorem anyYearB_of_infix {y : Nat} {r : List Char} (hy1 : 1900 ≤ y)
    (hy2 : y < 2100) (h : infB (natChars y) r = true) : anyYearB r = true := by
  unfold anyYearB
  rw [List.any_eq_true]
  exact ⟨y, List.mem_range'_1.mpr ⟨hy1, by omega⟩, h⟩

/-- Any string containing no `' @ '` occurrence and containing the rendered
current year is a fixed point of `fixDF`. -/
theorem fixDF_fixed {y : Nat} {r : List Char} (hy1 : 1900 ≤ y) (hy2 : y < 2100)
    (hns : infB sepA r = false) (hyc : natChars y <:+: r) : fixDF y r = r := by
  have hrep : replaceAtSign r = r := replaceAtSign_eq_self r hns
  have hany : anyYearB r = true :=
    anyYearB_of_infix hy1 hy2 ((infB_iff _ _).mpr hyc)
  unfold fixDF
  by_cases hsent : r = unknownS ∨ r = qkbS
  · rw [if_pos hsent]
  · rw [if_neg hsent]
    by_cases hyr : hasYearB r = true
    · rw [if_pos hyr]
      exact hrep
    · rw [if_neg hyr]
      simp [hns, hany, hrep]

/-! ## Claim C10 — idempotence of the date normalisation -/

/-- C10 counterexample: `fix_date_format` is not idempotent.  On the input
`"a @ @ b"` (overlapping `' @ '` separators) with current year 2026, one
application yields `"a, 2026, @ b"` — which still contains `' @ '` — and a
second application reformats it again to `"a, 2026,, b"`. -/
theorem C10_counterexample :
    fix_date_format 2026 "a @ @ b" = "a, 2026, @ b" ∧
    fix_date_format 2026 (fix_date_format 2026 "a @ @ b") = "a, 2026,, b" ∧
    fix_date_format 2026 (fix_date_format 2026 "a @ @ b")
      ≠ fix_date_format 2026 "a @ @ b" := by
  refine ⟨by decide, by decide, by decide⟩

/-- C10 (amended): `fix_date_format` is idempotent on every input in which
the separator `' @ '` does not occur, for any current year in 1900–2099.
(Inputs containing `' @ '` can break idempotence exactly when the stamping
leaves a residual `' @ '` behind, as in the counterexample.) -/
theorem C10_amended (y : Nat) (s : List Char) (hy1 : 1900 ≤ y)
    (hy2 : y < 2100) (hs : infB sepA s = false) :
    fixDF y (fixDF y s) = fixDF y s := by
  have hrep : replaceAtSign s = s := replaceAtSign_eq_self s hs
  by_cases hsent : s = unknownS ∨ s = qkbS
  · have h1 : fixDF y s = s := by unfold fixDF; rw [if_pos hsent]
    rw [h1]; exact h1
  · by_cases hyr : hasYearB s = true
    · have h1 : fixDF y s = s := by
        unfold fixDF; rw [if_neg hsent, if_pos hyr]; exact hrep
      rw [h1]; exact h1
    · by_cases hcond : (infB commaSp s && !anyYearB s) = true
      · rcases hsplit : splitCS s with _ | ⟨p0, rest0⟩
        · exact absurd hsplit (splitCS_ne_nil s)
        rcases rest0 with _ | ⟨p1, rest⟩
        · have h1 : fixDF y s = s := by
            unfold fixDF
            rw [if_neg hsent, if_neg hyr, if_neg (by simp [hs]), if_pos hcond,
              hsplit]
            exact hrep
          rw [h1]; exact h1
        · have h1 : fixDF y s
              = p0 ++ commaSp ++ natChars y ++ commaSp ++ interC (p1 :: rest) := by
            unfold fixDF
            rw [if_neg hsent, if_neg hyr, if_neg (by simp [hs]), if_pos hcond,
              hsplit]
          have hdecomp : s = p0 ++ ',' :: ' ' :: interC (p1 :: rest) := by
            conv_lhs => rw [← interC_splitCS s, hsplit]
            rw [interC]
          have hsProp : ¬ sepA <:+: s := fun hinf => by
            rw [(infB_iff sepA s).mpr hinf] at hs
            cases hs
          have hshape : p0 ++ commaSp ++ natChars y ++ commaSp ++ interC (p1 :: rest)
              = p0 ++ ',' :: ' ' :: (natChars y ++ ',' :: ' ' :: interC (p1 :: rest)) := by
            simp [commaSp]
          have hns_r : infB sepA (fixDF y s) = false := by
            rw [h1, hshape, Bool.eq_false_iff]
            intro hB
            exact stamped_no_sep hsProp hdecomp ((infB_iff _ _).mp hB)
          have hyc : natChars y <:+: fixDF y s := by
            rw [h1]
            exact ⟨p0 ++ commaSp, commaSp ++ interC (p1 :: rest), by simp⟩
          exact fixDF_fixed hy1 hy2 hns_r hyc
      · have h1 : fixDF y s = s := by
          unfold fixDF
          rw [if_neg hsent, if_neg hyr, if_neg (by simp [hs]), if_neg hcond]
          exact hrep
        rw [h1]; exact h1

/-- Closed instance of `C10_amended` at a concrete yearless date. -/
theorem C10_amended_witness :
    (1900 ≤ 2026 ∧ 2026 < 2100 ∧ infB sepA "1 Jan, 12:20pm".data = false) ∧
    fixDF 2026 (fixDF 2026 "1 Jan, 12:20pm".data)
      = fixDF 2026 "1 Jan, 12:20pm".data :=
  ⟨⟨by decide, by decide, by decide⟩,
    C10_amended 2026 "1 Jan, 12:20pm".data (by decide) (by decide) (by decide)⟩

/-! ## Claim C9 — behaviour of the date normalisation by input class -/

/-- C9 counterexample: `"1 Jan 12:20pm"` is a date string with no 4-digit
year, yet `fix_date_format` does not stamp the current year onto it — it is
returned unchanged (the source's "If we can't parse it, return as-is"
fallback), and the rendered current year does not occur in the output. -/
theorem C9_counterexample :
    hasYearB "1 Jan 12:20pm".data = false ∧
    fix_date_format 2026 "1 Jan 12:20pm" = "1 Jan 12:20pm" ∧
    infB (natChars 2026) (fixDF 2026 "1 Jan 12:20pm".data) = false := by
  refine ⟨by decide, by decide, by decide⟩

theorem replaceAtSign_digits (l : List Char) :
    (replaceAtSign l).filter Char.isDigit = l.filter Char.isDigit := by
  induction l using replaceAtSign.induct with
  | case1 => rfl
  | case2 c => rfl
  | case3 c d => rfl
  | case4 c d e rest hcond ih =>
    obtain ⟨rfl, rfl, rfl⟩ := hcond
    simpa [replaceAtSign, List.filter_cons] using ih
  | case5 c d e rest hcond ih =>
    rw [replaceAtSign, if_neg hcond, List.filter_cons, ih, ← List.filter_cons]

/-- C9 (amended): the sentinels `"Unknown"` and `"? KB"` are returned
unchanged; a non-sentinel input already containing a 4-digit year (word
bounded, first two digits 19 or 20) is only reformatted by the
`' @ ' → ', '` replacement, which never changes any digit (so the year is
never re-dated); a yearless input containing `' @ '` (resp. containing
`', '` with no 1900–2099 substring) has the current year stamped between
its first two separator pieces; any other yearless input is returned
unchanged. -/
theorem C9_amended :
    (∀ y : Nat, fixDF y unknownS = unknownS ∧ fixDF y qkbS = qkbS) ∧
    (∀ (y : Nat) (s : List Char), ¬(s = unknownS ∨ s = qkbS) →
      hasYearB s = true → fixDF y s = replaceAtSign s) ∧
    (∀ l : List Char,
      (replaceAtSign l).filter Char.isDigit = l.filter Char.isDigit) ∧
    (∀ (y : Nat) (s p0 p1 : List Char) (ps : List (List Char)),
      ¬(s = unknownS ∨ s = qkbS) → hasYearB s = false →
      infB sepA s = true → splitSepA s = p0 :: p1 :: ps →
      fixDF y s = p0 ++ commaSp ++ natChars y ++ commaSp ++ p1) ∧
    (∀ (y : Nat) (s p0 p1 : List Char) (ps : List (List Char)),
      ¬(s = unknownS ∨ s = qkbS) → hasYearB s = false →
      infB sepA s = false → infB commaSp s = true → anyYearB s = false →
      splitCS s = p0 :: p1 :: ps →
      fixDF y s = p0 ++ commaSp ++ natChars y ++ commaSp ++ interC (p1 :: ps)) ∧
    (∀ (y : Nat) (s : List Char),
      ¬(s = unknownS ∨ s = qkbS) → hasYearB s = false →
      infB sepA s = false → (infB commaSp s = false ∨ anyYearB s = true) →
      fixDF y s = s) := by
  refine ⟨?_, ?_, replaceAtSign_digits, ?_, ?_, ?_⟩
  · intro y
    constructor
    · unfold fixDF; rw [if_pos (Or.inl rfl)]
    · unfold fixDF; rw [if_pos (Or.inr rfl)]
  · intro y s hsent hyear
    unfold fixDF; rw [if_neg hsent, if_pos hyear]
  · intro y s p0 p1 ps hsent hyear hsep hsplit
    unfold fixDF; rw [if_neg hsent, if_neg (by simp [hyear]), if_pos hsep, hsplit]
  · intro y s p0 p1 ps hsent hyear hsep hcs hany hsplit
    unfold fixDF
    rw [if_neg hsent, if_neg (by simp [hyear]), if_neg (by simp [hsep]),
      if_pos (by simp [hcs, hany]), hsplit]
  · intro y s hsent hyear hsep hor
    unfold fixDF
    rw [if_neg hsent, if_neg (by simp [hyear]), if_neg (by simp [hsep]),
      if_neg (by rcases hor with h | h <;> simp [h])]
    exact replaceAtSign_eq_self s hsep

/-- Closed instances of `C9_amended` on concrete dates of each class. -/
theorem C9_amended_witness :
    fixDF 2026 unknownS = unknownS ∧
    fixDF 2026 "1 Jan, 2020 @ 3pm".data = replaceAtSign "1 Jan, 2020 @ 3pm".data ∧
    fixDF 2026 "1 Jan @ 3pm".data
      = "1 Jan".data ++ commaSp ++ natChars 2026 ++ commaSp ++ "3pm".data ∧
    fixDF 2026 "1 Jan 12:20pm".data = "1 Jan 12:20pm".data :=
  ⟨(C9_amended.1 2026).1,
    C9_amended.2.1 2026 "1 Jan, 2020 @ 3pm".data (by decide) (by decide),
    C9_amended.2.2.2.1 2026 "1 Jan @ 3pm".data "1 Jan".data "3pm".data []
      (by decide) (by decide) (by decide) (by decide),
    C9_amended.2.2.2.2.2 2026 "1 Jan 12:20pm".data (by decide) (by decide)
      (by decide) (Or.inl (by decide))⟩

/-! ## Claim C8 — the delay policy and its application -/

/-- C8 counterexample: the step function gives `delay(1) = 1.0`, but the
run performs no wait at all before fetching page 1 — `time.sleep` is only
reached when the computed delay exceeds 1 second (line 275), so the claimed
"delay is applied (waited) immediately before each listing-page fetch" fails
for pages 1–5. -/
theorem C8_counterexample :
    (1 : ℚ) ≤ calculate_delay 1 ∧
    (fetch_workshop_items envEmptyPages [] 1).st.fetchLog = [1] ∧
    (fetch_workshop_items envEmptyPages [] 1).st.sleepLog = [] := by
  refine ⟨by norm_num [calculate_delay], by decide, by decide⟩

/-- C8 (amended): `calculate_delay` is the pure step function of the claim
(`delay(16)=3.0`, `delay(11)=2.5`, `delay(6)=2.0`, `delay(1)=1.0`), but the
wait before each listing-page fetch is performed only when the computed
delay exceeds 1 second, i.e. only for pages above 5; pages 1–5 incur no
inter-page wait. -/
theorem C8_amended :
    calculate_delay 16 = 3 ∧ calculate_delay 11 = 2.5 ∧
    calculate_delay 6 = 2 ∧ calculate_delay 1 = 1 ∧
    (∀ p : Nat, calculate_delay p =
      if p > 15 then 3 else if p > 10 then 2.5 else if p > 5 then 2 else 1) ∧
    (∀ p : Nat, (1 < calculate_delay p ↔ p > 5)) ∧
    (∀ p : Nat, delayLog p = if p > 5 then [calculate_delay p] else []) := by
  have hstep : ∀ p : Nat, (1 < calculate_delay p ↔ p > 5) := by
    intro p
    unfold calculate_delay
    split_ifs with h1 h2 h3
    · exact ⟨fun _ => by omega, fun _ => by norm_num⟩
    · exact ⟨fun _ => by omega, fun _ => by norm_num⟩
    · exact ⟨fun _ => h3, fun _ => by norm_num⟩
    · exact ⟨fun h => absurd h (by norm_num), fun h => absurd h h3⟩
  refine ⟨by norm_num [calculate_delay], by norm_num [calculate_delay],
    by norm_num [calculate_delay], by norm_num [calculate_delay],
    fun p => rfl, hstep, ?_⟩
  intro p
  unfold delayLog
  by_cases h5 : p > 5
  · rw [if_pos ((hstep p).mpr h5), if_pos h5]
  · rw [if_neg (fun hlt => h5 ((hstep p).mp hlt)), if_neg h5]

/-! ## Claim C3 — `resume_scraping` clears every pause condition -/

/-- C3: from any state with `is_paused` set (whether the pause came from the
rate limiter or not), `resume_scraping` returns the controller to Running:
it clears `is_paused`, the `pause_event`, the `auto_paused` marker and the
`rate_limit_detected` flag simultaneously. -/
theorem C3_resume_clears_all (c : CtrlState) (h : c.is_paused = true) :
    resume_scraping c = ⟨false, false, false, false⟩ := by
  unfold resume_scraping
  rw [if_pos h]
  by_cases hr : c.rate_limit_detected = true
  · simp [hr]
  · simp only [Bool.not_eq_true] at hr
    simp [hr]

/-- Closed instances of `C3_resume_clears_all`: a rate-limit auto-pause
state and a pause state without the rate-limit flag. -/
theorem C3_resume_clears_all_witness :
    resume_scraping ⟨true, true, true, true⟩ = ⟨false, false, false, false⟩ ∧
    resume_scraping ⟨true, true, false, false⟩ = ⟨false, false, false, false⟩ :=
  ⟨C3_resume_clears_all ⟨true, true, true, true⟩ rfl,
    C3_resume_clears_all ⟨true, true, false, false⟩ rfl⟩

/-! ## Claim C2 — pausing in the middle of a batch -/

/-- C2 counterexample: a 4-item batch whose detail fetches all succeed, with
the pause controller observed blocking exactly when item 3 is about to be
processed (`schedMidBatch`).  The claim says items 3 and 4 then appear in
the pending set; in the source the per-item check (lines 93-96) merely
*waits* for the pause to clear and then continues, so all four items are
collected and nothing is ever enqueued as pending. -/
theorem C2_counterexample :
    (process_item_batch envEmptyPages
      [linkedItem 1, linkedItem 2, linkedItem 3, linkedItem 4] 1
      (initSt schedMidBatch)).1
        = [linkedItem 1, linkedItem 2, linkedItem 3, linkedItem 4] ∧
    (process_item_batch envEmptyPages
      [linkedItem 1, linkedItem 2, linkedItem 3, linkedItem 4] 1
      (initSt schedMidBatch)).2.pending = [] ∧
    (process_item_batch envEmptyPages
      [linkedItem 1, linkedItem 2, linkedItem 3, linkedItem 4] 1
      (initSt schedMidBatch)).2.pendLog = [] := by
  refine ⟨by decide, by decide, by decide⟩

/-! ## Claim C7 — transient network errors -/

/-- C7 counterexample: page 1's fetch fails with a transient network error
under the empty schedule — the pause flag is never set and no operator
resume ever occurs — yet the run does not block waiting for a resume: it
immediately retries page 1 (fetch log `[1, 1]`) and terminates
successfully.  The `while pause_event.is_set()` loop of lines 353-356 is
vacuous when no pause is active, so no operator intervention is required,
contradicting the claim. -/
theorem C7_counterexample :
    (fetch_workshop_items envTransient [] 3).term = .success ∧
    (fetch_workshop_items envTransient [] 3).st.fetchLog = [1, 1] ∧
    (fetch_workshop_items envTransient [] 3).st.errors = [errNet 1] := by
  refine ⟨by decide, by decide, by decide⟩

/-! ## Claim C1 — the no-loss accounting, counterexample -/

/-- C1 counterexample: page 1 yields a single item whose `<a>` anchor is
missing; the run terminates successfully with that item in the discovered
list but in neither the collected records nor the pending list — it is
silently dropped (no `else` for `if item_link:` at line 125), so
`collected + pending = discovered` fails. -/
theorem C1_counterexample :
    (fetch_workshop_items envBare [] 5).term = .success ∧
    (fetch_workshop_items envBare [] 5).st.discovered = [bareItem 0] ∧
    (fetch_workshop_items envBare [] 5).items = [] ∧
    (fetch_workshop_items envBare [] 5).st.pending = [] ∧
    (fetch_workshop_items envBare [] 5).st.pendLog = [] := by
  refine ⟨by decide, by decide, by decide, by decide, by decide⟩

/-! ## Claim C5 — the final pending pass, counterexample -/

/-- C5 counterexample: the link-less item of page 1 is enqueued as pending
(batch pre-check pause), re-enqueued whole by the drain's pre-batch pause of
the next iteration (both enqueues are visible in `pendLog`), and is thus
still pending when page 2 returns zero items.  The run terminates with
`Success` and the final pass receives the entry, but the entry gets no
detail-fetch attempt (`detailFetches = 0`) and is neither collected nor
reported as still pending — it vanishes (no `else` for `if item_link:` at
line 397), contradicting "each still-pending item receives exactly one
final-pass retry attempt; items that still fail are reported as pending". -/
theorem C5_counterexample :
    (fetch_workshop_items envBare schedFinalDrop 5).term = .success ∧
    (fetch_workshop_items envBare schedFinalDrop 5).st.pendLog
      = [⟨bareItem 0, 1, 0⟩, ⟨bareItem 0, 1, 0⟩] ∧
    (fetch_workshop_items envBare schedFinalDrop 5).st.detailFetches = 0 ∧
    (fetch_workshop_items envBare schedFinalDrop 5).items = [] ∧
    (fetch_workshop_items envBare schedFinalDrop 5).st.pending = [] := by
  refine ⟨by decide, by decide, by decide, by decide, by decide⟩

/-! ## Toolbox: identity-multiset algebra -/

theorem recIds_nil : recIds [] = 0 := rfl

theorem recIds_cons (it : Item) (l : List Item) :
    recIds (it :: l) = {it.id} + recIds l := by
  simp [recIds, Multiset.cons_eq_cons]

theorem recIds_append (a b : List Item) :
    recIds (a ++ b) = recIds a + recIds b := by
  simp [recIds]

theorem linkedIds_nil : linkedIds [] = 0 := rfl

theorem linkedIds_cons (it : Item) (l : List Item) :
    linkedIds (it :: l)
      = (if it.hasLink then ({it.id} : Multiset Nat) else 0) + linkedIds l := by
  by_cases h : it.hasLink
  · simp [linkedIds, List.filter_cons, h]
  · simp [linkedIds, List.filter_cons, h]

theorem linkedIds_append (a b : List Item) :
    linkedIds (a ++ b) = linkedIds a + linkedIds b := by
  simp [linkedIds]

theorem pendLinkedIds_nil : pendLinkedIds [] = 0 := rfl

theorem pendLinkedIds_cons (e : PendingEntry) (l : List PendingEntry) :
    pendLinkedIds (e :: l)
      = (if e.item.hasLink then ({e.item.id} : Multiset Nat) else 0)
        + pendLinkedIds l := by
  by_cases h : e.item.hasLink
  · simp [pendLinkedIds, List.filter_cons, h]
  · simp [pendLinkedIds, List.filter_cons, h]

theorem pendLinkedIds_append (a b : List PendingEntry) :
    pendLinkedIds (a ++ b) = pendLinkedIds a + pendLinkedIds b := by
  simp [pendLinkedIds]

theorem pendLinkedIds_perm {a b : List PendingEntry} (h : a.Perm b) :
    pendLinkedIds a = pendLinkedIds b := by
  unfold pendLinkedIds
  exact Multiset.coe_eq_coe.mpr ((h.filter _).map _)

/-! ## Toolbox: basic state lemmas -/

theorem observe_snd (st : St) : ∃ sch, (observe st).2 = { st with sched := sch } := by
  rcases h : st.sched with _ | ⟨s, rest⟩
  · refine ⟨[], ?_⟩
    cases st
    subst h
    rfl
  · exact ⟨rest, by simp [observe, h]⟩

theorem observe_nil (st : St) (h : st.sched = []) : (observe st).2 = st := by
  cases st
  subst h
  rfl

theorem observe_nil_fst (st : St) (h : st.sched = []) :
    (observe st).1 = ⟨false, false⟩ := by
  simp [observe, h]

theorem waitWhile_nil (f : Sig → Bool) (st : St) (h : st.sched = []) :
    waitWhile f st = st := by
  cases st
  subst h
  rfl

theorem stFrame_rfl (a : St) : stFrame a a := ⟨rfl, rfl, rfl, rfl, rfl⟩

theorem stFrame_trans {a b c : St} (h1 : stFrame a b) (h2 : stFrame b c) :
    stFrame a c := by
  obtain ⟨x1, x2, x3, x4, x5⟩ := h1
  obtain ⟨y1, y2, y3, y4, y5⟩ := h2
  exact ⟨x1.trans y1, x2.trans y2, x3.trans y3, x4.trans y4, x5.trans y5⟩

theorem observe_stFrame (st : St) : stFrame (observe st).2 st := by
  obtain ⟨sch, h⟩ := observe_snd st
  rw [h]
  exact ⟨rfl, rfl, rfl, rfl, rfl⟩

theorem waitWhile_stFrame (f : Sig → Bool) (st : St) : stFrame (waitWhile f st) st :=
  ⟨rfl, rfl, rfl, rfl, rfl⟩

/-- The call `fetch_item_details` changes only `sched`, `detailFetches` and
`errors`, and on success returns exactly the fetched item. -/
theorem fetch_item_details_spec (env : Env) (it : Item) (st : St) :
    (fetch_item_details env it st).2.pending = st.pending ∧
    (fetch_item_details env it st).2.pendLog = st.pendLog ∧
    stFrame (fetch_item_details env it st).2 st ∧
    ((fetch_item_details env it st).1 = some it ∨
      (fetch_item_details env it st).1 = none) := by
  rcases hs : st.sched with _ | ⟨sig, rest⟩ <;>
    simp only [fetch_item_details, observe, hs] <;>
    split_ifs <;> simp [stFrame]

theorem fetch_item_details_sched_nil (env : Env) (it : Item) (st : St)
    (h : st.sched = []) : (fetch_item_details env it st).2.sched = [] := by
  simp only [fetch_item_details, observe, h]
  split_ifs <;> simp [h]

/-! ## Toolbox: step equations for the fresh-batch loop -/

theorem pib_go_nil (env : Env) (page i : Nat) (st : St) :
    process_item_batch_go env page [] i st = ([], st) := rfl

theorem pib_go_cons_some (env : Env) (page : Nat) (it : Item) (rest : List Item)
    (i : Nat) (st st2 : St) (hl : it.hasLink = true)
    (hfd : fetch_item_details env it (waitWhile (fun s => s.paused || s.rate) st)
      = (some it, st2)) :
    process_item_batch_go env page (it :: rest) i st
      = (it :: (process_item_batch_go env page rest (i + 1) st2).1,
         (process_item_batch_go env page rest (i + 1) st2).2) := by
  rcases hgo : process_item_batch_go env page rest (i + 1) st2 with ⟨rs, st3⟩
  simp [process_item_batch_go, hl, hfd, hgo]

theorem pib_go_cons_none (env : Env) (page : Nat) (it : Item) (rest : List Item)
    (i : Nat) (st st2 : St) (hl : it.hasLink = true)
    (hfd : fetch_item_details env it (waitWhile (fun s => s.paused || s.rate) st)
      = (none, st2)) :
    process_item_batch_go env page (it :: rest) i st
      = process_item_batch_go env page rest (i + 1)
          { st2 with pending := st2.pending ++ [⟨it, page, i⟩],
                     pendLog := st2.pendLog ++ [⟨it, page, i⟩] } := by
  simp [process_item_batch_go, hl, hfd]

theorem pib_go_cons_nolink (env : Env) (page : Nat) (it : Item)
    (rest : List Item) (i : Nat) (st : St) (hl : it.hasLink = false) :
    process_item_batch_go env page (it :: rest) i st
      = process_item_batch_go env page rest (i + 1)
          (waitWhile (fun s => s.paused || s.rate) st) := by
  simp [process_item_batch_go, hl]

/-- No link-carrying item of a fresh batch is lost: the results plus the
newly appended pending entries account exactly for the batch's linked
items, and the loop leaves the page-level state components alone. -/
theorem process_item_batch_go_delta (env : Env) (page : Nat) :
    ∀ (batch : List Item) (i : Nat) (st : St),
      ∃ Δ, (process_item_batch_go env page batch i st).2.pending
          = st.pending ++ Δ ∧
        recIds (process_item_batch_go env page batch i st).1 + pendLinkedIds Δ
          = linkedIds batch ∧
        stFrame (process_item_batch_go env page batch i st).2 st := by
  intro batch
  induction batch with
  | nil =>
    intro i st
    exact ⟨[], by simp [pib_go_nil], by
      simp [pib_go_nil, recIds_nil, pendLinkedIds_nil, linkedIds_nil],
      by rw [pib_go_nil]; exact stFrame_rfl st⟩
  | cons it rest ih =>
    intro i st
    set stw := waitWhile (fun s => s.paused || s.rate) st with hstw
    have hww : stw.pending = st.pending ∧ stFrame stw st := by
      rw [hstw]
      exact ⟨rfl, waitWhile_stFrame _ st⟩
    by_cases hl : it.hasLink = true
    · obtain ⟨hp, hpl, hf, hres⟩ := fetch_item_details_spec env it stw
      rcases hfd : fetch_item_details env it stw with ⟨o, st2⟩
      rw [hfd] at hp hpl hf hres
      simp only at hp hpl hf hres
      rcases hres with h1 | h1
      · subst h1
        obtain ⟨Δ, hΔ, hsum, hfr⟩ := ih (i + 1) st2
        rw [pib_go_cons_some env page it rest i st st2 hl hfd]
        refine ⟨Δ, ?_, ?_, ?_⟩
        · simp [hΔ, hp, hww.1]
        · rw [recIds_cons, linkedIds_cons, if_pos hl, add_assoc, hsum]
        · exact stFrame_trans hfr (stFrame_trans hf hww.2)
      · subst h1
        rw [pib_go_cons_none env page it rest i st st2 hl hfd]
        obtain ⟨Δ, hΔ, hsum, hfr⟩ :=
          ih (i + 1) { st2 with pending := st2.pending ++ [⟨it, page, i⟩],
                                pendLog := st2.pendLog ++ [⟨it, page, i⟩] }
        refine ⟨⟨it, page, i⟩ :: Δ, ?_, ?_, ?_⟩
        · rw [hΔ]
          simp [hp, hww.1]
        · rw [pendLinkedIds_cons, if_pos hl, linkedIds_cons, if_pos hl, ← hsum]
          abel
        · refine stFrame_trans hfr (stFrame_trans ?_ (stFrame_trans hf hww.2))
          exact ⟨rfl, rfl, rfl, rfl, rfl⟩
    · simp only [Bool.not_eq_true] at hl
      rw [pib_go_cons_nolink env page it rest i st hl]
      obtain ⟨Δ, hΔ, hsum, hfr⟩ := ih (i + 1) stw
      refine ⟨Δ, ?_, ?_, ?_⟩
      · rw [hΔ, hww.1]
      · rw [hsum, linkedIds_cons, if_neg (by simp [hl]), zero_add]
      · exact stFrame_trans hfr hww.2

/-! ## Toolbox: step equations and delta lemma for the retry-batch loop -/

theorem pibr_nil (env : Env) (st : St) :
    process_item_batch_retry env [] st = ([], st) := rfl

theorem pibr_cons_some (env : Env) (e : PendingEntry) (rest : List PendingEntry)
    (st st2 : St) (hl : e.item.hasLink = true)
    (hfd : fetch_item_details env e.item
        (waitWhile (fun s => s.paused || s.rate) st) = (some e.item, st2)) :
    process_item_batch_retry env (e :: rest) st
      = (e.item :: (process_item_batch_retry env rest st2).1,
         (process_item_batch_retry env rest st2).2) := by
  rcases hgo : process_item_batch_retry env rest st2 with ⟨rs, st3⟩
  simp [process_item_batch_retry, hl, hfd, hgo]

theorem pibr_cons_none (env : Env) (e : PendingEntry) (rest : List PendingEntry)
    (st st2 : St) (hl : e.item.hasLink = true)
    (hfd : fetch_item_details env e.item
        (waitWhile (fun s => s.paused || s.rate) st) = (none, st2)) :
    process_item_batch_retry env (e :: rest) st
      = process_item_batch_retry env rest
          { st2 with pending := st2.pending ++ [e], pendLog := st2.pendLog ++ [e] } := by
  simp [process_item_batch_retry, hl, hfd]

theorem pibr_cons_nolink (env : Env) (e : PendingEntry)
    (rest : List PendingEntry) (st : St) (hl : e.item.hasLink = false) :
    process_item_batch_retry env (e :: rest) st
      = process_item_batch_retry env rest
          (waitWhile (fun s => s.paused || s.rate) st) := by
  simp [process_item_batch_retry, hl]

/-- No link-carrying entry of a retry batch is lost. -/
theorem process_item_batch_retry_delta (env : Env) :
    ∀ (entries : List PendingEntry) (st : St),
      ∃ Δ, (process_item_batch_retry env entries st).2.pending
          = st.pending ++ Δ ∧
        recIds (process_item_batch_retry env entries st).1 + pendLinkedIds Δ
          = pendLinkedIds entries ∧
        stFrame (process_item_batch_retry env entries st).2 st := by
  intro entries
  induction entries with
  | nil =>
    intro st
    exact ⟨[], by simp [pibr_nil], by
      simp [pibr_nil, recIds_nil, pendLinkedIds_nil],
      by rw [pibr_nil]; exact stFrame_rfl st⟩
  | cons e rest ih =>
    intro st
    set stw := waitWhile (fun s => s.paused || s.rate) st with hstw
    have hww : stw.pending = st.pending ∧ stFrame stw st := by
      rw [hstw]
      exact ⟨rfl, waitWhile_stFrame _ st⟩
    by_cases hl : e.item.hasLink = true
    · obtain ⟨hp, hpl, hf, hres⟩ := fetch_item_details_spec env e.item stw
      rcases hfd : fetch_item_details env e.item stw with ⟨o, st2⟩
      rw [hfd] at hp hpl hf hres
      simp only at hp hpl hf hres
      rcases hres with h1 | h1
      · subst h1
        obtain ⟨Δ, hΔ, hsum, hfr⟩ := ih st2
        rw [pibr_cons_some env e rest st st2 hl hfd]
        refine ⟨Δ, ?_, ?_, ?_⟩
        · simp [hΔ, hp, hww.1]
        · rw [recIds_cons, pendLinkedIds_cons, if_pos hl, add_assoc, hsum]
        · exact stFrame_trans hfr (stFrame_trans hf hww.2)
      · subst h1
        rw [pibr_cons_none env e rest st st2 hl hfd]
        obtain ⟨Δ, hΔ, hsum, hfr⟩ :=
          ih { st2 with pending := st2.pending ++ [e], pendLog := st2.pendLog ++ [e] }
        refine ⟨e :: Δ, ?_, ?_, ?_⟩
        · rw [hΔ]
          simp [hp, hww.1]
        · rw [pendLinkedIds_cons, if_pos hl, pendLinkedIds_cons, if_pos hl, ← hsum]
          abel
        · refine stFrame_trans hfr (stFrame_trans ?_ (stFrame_trans hf hww.2))
          exact ⟨rfl, rfl, rfl, rfl, rfl⟩
    · simp only [Bool.not_eq_true] at hl
      rw [pibr_cons_nolink env e rest st hl]
      obtain ⟨Δ, hΔ, hsum, hfr⟩ := ih stw
      refine ⟨Δ, ?_, ?_, ?_⟩
      · rw [hΔ, hww.1]
      · rw [hsum, pendLinkedIds_cons, if_neg (by simp [hl]), zero_add]
      · exact stFrame_trans hfr hww.2

/-! ## Toolbox: chunking and enumeration -/

theorem chunksAux_flatten : ∀ (l acc : List α) (k : Nat),
    (chunksAux l acc k).flatten = acc ++ l := by
  intro l
  induction l with
  | nil =>
    intro acc k
    rcases acc with _ | ⟨a, as⟩ <;> simp [chunksAux]
  | cons a rest ih =>
    intro acc k
    by_cases hk : k ≤ 1
    · simp [chunksAux, hk, ih]
    · simp [chunksAux, hk, ih]

theorem chunks4_flatten (l : List α) : (chunks4 l).flatten = l := by
  simpa [chunks4] using chunksAux_flatten l [] 4

theorem enumPend_items (page : Nat) :
    ∀ (base : Nat) (l : List Item),
      (enumPend page base l).map (fun e => e.item) = l := by
  intro base l
  induction l generalizing base with
  | nil => rfl
  | cons it rest ih => simp [enumPend, ih]

theorem pendLinkedIds_enumPend (page base : Nat) (l : List Item) :
    pendLinkedIds (enumPend page base l) = linkedIds l := by
  induction l generalizing base with
  | nil => rfl
  | cons it rest ih =>
    rw [enumPend, pendLinkedIds_cons, linkedIds_cons, ih]

/-! ## Toolbox: the drain section -/

/-- Batch loop of the drain: nothing is lost — whether a batch is
re-enqueued whole at the pre-check or processed in retry mode. -/
theorem drain_batches_delta (env : Env) :
    ∀ (bs : List (List PendingEntry)) (items : List Item) (st : St),
      ∃ Δ rs, (drain_batches env bs items st).1 = items ++ rs ∧
        (drain_batches env bs items st).2.pending = st.pending ++ Δ ∧
        recIds rs + pendLinkedIds Δ = pendLinkedIds bs.flatten ∧
        stFrame (drain_batches env bs items st).2 st := by
  intro bs
  induction bs with
  | nil =>
    intro items st
    exact ⟨[], [], by simp [drain_batches], by simp [drain_batches],
      by simp [recIds_nil, pendLinkedIds_nil],
      by simp only [drain_batches]; exact stFrame_rfl st⟩
  | cons b rest ih =>
    intro items st
    obtain ⟨sch, hobs⟩ := observe_snd st
    rcases hp : observe st with ⟨sig, st1⟩
    rw [hp] at hobs
    simp only at hobs
    by_cases hblk : (sig.paused || sig.rate) = true
    · have hstep : drain_batches env (b :: rest) items st
          = drain_batches env rest items
              { st1 with pending := st1.pending ++ b, pendLog := st1.pendLog ++ b } := by
        simp [drain_batches, hp, hblk]
      rw [hstep]
      obtain ⟨Δ, rs, h1, h2, h3, h4⟩ :=
        ih items { st1 with pending := st1.pending ++ b, pendLog := st1.pendLog ++ b }
      refine ⟨b ++ Δ, rs, h1, ?_, ?_, ?_⟩
      · rw [h2]
        simp [hobs]
      · rw [List.flatten_cons, pendLinkedIds_append, pendLinkedIds_append, ← h3]
        abel
      · refine stFrame_trans h4 ?_
        rw [hobs]
        exact ⟨rfl, rfl, rfl, rfl, rfl⟩
    · have hstep : drain_batches env (b :: rest) items st
          = drain_batches env rest
              (items ++ (process_item_batch_retry env b st1).1)
              (process_item_batch_retry env b st1).2 := by
        rcases hr : process_item_batch_retry env b st1 with ⟨rs0, st2⟩
        simp [drain_batches, hp, hblk, hr]
      rw [hstep]
      obtain ⟨Δ0, hΔ0, hsum0, hfr0⟩ := process_item_batch_retry_delta env b st1
      obtain ⟨Δ, rs, h1, h2, h3, h4⟩ :=
        ih (items ++ (process_item_batch_retry env b st1).1)
          (process_item_batch_retry env b st1).2
      refine ⟨Δ0 ++ Δ, (process_item_batch_retry env b st1).1 ++ rs, ?_, ?_, ?_, ?_⟩
      · rw [h1, List.append_assoc]
      · rw [h2, hΔ0, hobs]
        simp
      · rw [List.flatten_cons, pendLinkedIds_append, pendLinkedIds_append,
          ← h3, ← hsum0, recIds_append]
        abel
      · refine stFrame_trans h4 (stFrame_trans hfr0 ?_)
        rw [hobs]
        exact ⟨rfl, rfl, rfl, rfl, rfl⟩

theorem mem_insertNat {a n : Nat} :
    ∀ {l : List Nat}, a ∈ insertNat n l ↔ a = n ∨ a ∈ l := by
  intro l
  induction l with
  | nil => simp [insertNat]
  | cons m rest ih =>
    by_cases h : n ≤ m
    · simp [insertNat, h]
    · simp [insertNat, h, ih]
      tauto

theorem mem_sortNat {a : Nat} : ∀ {l : List Nat}, a ∈ sortNat l ↔ a ∈ l := by
  intro l
  induction l with
  | nil => simp [sortNat]
  | cons n rest ih => simp [sortNat, mem_insertNat, ih]

theorem nodup_insertNat {n : Nat} :
    ∀ {l : List Nat}, n ∉ l → l.Nodup → (insertNat n l).Nodup := by
  intro l
  induction l with
  | nil => intro _ _; simp [insertNat]
  | cons m rest ih =>
    intro hn hnd
    rcases List.nodup_cons.mp hnd with ⟨hm, hrest⟩
    by_cases h : n ≤ m
    · rw [insertNat, if_pos h]
      exact List.nodup_cons.mpr ⟨hn, hnd⟩
    · rw [insertNat, if_neg h]
      refine List.nodup_cons.mpr ⟨?_, ih (fun hx => hn (List.mem_cons_of_mem m hx)) hrest⟩
      rw [mem_insertNat]
      rintro (rfl | hx)
      · exact hn (List.mem_cons_self _ _)
      · exact hm hx

theorem nodup_sortNat : ∀ {l : List Nat}, l.Nodup → (sortNat l).Nodup := by
  intro l
  induction l with
  | nil => intro _; simp [sortNat]
  | cons n rest ih =>
    intro hnd
    rcases List.nodup_cons.mp hnd with ⟨hm, hrest⟩
    exact nodup_insertNat (fun hx => hm (mem_sortNat.mp hx)) (ih hrest)

theorem drainKeys_nodup (retry : List PendingEntry) : (drainKeys retry).Nodup :=
  nodup_sortNat (List.nodup_dedup _)

theorem mem_drainKeys {retry : List PendingEntry} {e : PendingEntry}
    (he : e ∈ retry) : e.page ∈ drainKeys retry :=
  mem_sortNat.mpr (List.mem_dedup.mpr (List.mem_map_of_mem _ he))

/-- Grouping the drained entries by pages that cover them and are pairwise
distinct accounts for every entry exactly once. -/
theorem pendLinkedIds_partition :
    ∀ (keys : List Nat) (retry : List PendingEntry), keys.Nodup →
      (∀ e ∈ retry, e.page ∈ keys) →
      (keys.map (fun k => pendLinkedIds (retry.filter (fun e => e.page == k)))).sum
        = pendLinkedIds retry := by
  intro keys
  induction keys with
  | nil =>
    intro retry _ hcov
    have hnil : retry = [] := by
      cases retry with
      | nil => rfl
      | cons e es => exact absurd (hcov e (by simp)) (by simp)
    simp [hnil, pendLinkedIds_nil]
  | cons k ks ih =>
    intro retry hnd hcov
    have hks_nd : ks.Nodup := (List.nodup_cons.mp hnd).2
    have hk_not : k ∉ ks := (List.nodup_cons.mp hnd).1
    have hperm := List.filter_append_perm (fun e => e.page == k) retry
    have hmap : ks.map (fun q => pendLinkedIds (retry.filter (fun e => e.page == q)))
        = ks.map (fun q => pendLinkedIds
            ((retry.filter (fun e => !(e.page == k))).filter (fun e => e.page == q))) := by
      apply List.map_congr_left
      intro q hq
      have hqk : q ≠ k := fun h => hk_not (h ▸ hq)
      rw [List.filter_filter]
      congr 1
      apply List.filter_congr
      intro e _
      by_cases hpq : e.page = q
      · simp [hpq, hqk]
      · simp [hpq]
    have hcov2 : ∀ e ∈ retry.filter (fun e => !(e.page == k)), e.page ∈ ks := by
      intro e he
      rw [List.mem_filter] at he
      rcases List.mem_cons.mp (hcov e he.1) with h | h
      · exfalso
        have := he.2
        simp [h] at this
      · exact h
    rw [List.map_cons, List.sum_cons, hmap,
      ih (retry.filter (fun e => !(e.page == k))) hks_nd hcov2,
      ← pendLinkedIds_append, pendLinkedIds_perm hperm]

theorem drain_pages_delta (env : Env) (retry : List PendingEntry) :
    ∀ (keys : List Nat) (items : List Item) (st : St),
      ∃ Δ rs, (drain_pages env retry keys items st).1 = items ++ rs ∧
        (drain_pages env retry keys items st).2.pending = st.pending ++ Δ ∧
        recIds rs + pendLinkedIds Δ
          = (keys.map (fun k =>
              pendLinkedIds (retry.filter (fun e => e.page == k)))).sum ∧
        stFrame (drain_pages env retry keys items st).2 st := by
  intro keys
  induction keys with
  | nil =>
    intro items st
    exact ⟨[], [], by simp [drain_pages], by simp [drain_pages],
      by simp [recIds_nil, pendLinkedIds_nil],
      by simp only [drain_pages]; exact stFrame_rfl st⟩
  | cons k ks ih =>
    intro items st
    obtain ⟨Δ1, rs1, h1, h2, h3, h4⟩ :=
      drain_batches_delta env (chunks4 (retry.filter (fun e => e.page == k))) items st
    rcases hdb : drain_batches env (chunks4 (retry.filter (fun e => e.page == k)))
        items st with ⟨items2, st2⟩
    rw [hdb] at h1 h2 h4
    simp only at h1 h2 h4
    have hstep : drain_pages env retry (k :: ks) items st
        = drain_pages env retry ks items2 st2 := by
      simp [drain_pages, hdb]
    rw [hstep]
    obtain ⟨Δ, rs, g1, g2, g3, g4⟩ := ih items2 st2
    refine ⟨Δ1 ++ Δ, rs1 ++ rs, ?_, ?_, ?_, ?_⟩
    · rw [g1, h1, List.append_assoc]
    · rw [g2, h2, List.append_assoc]
    · rw [List.map_cons, List.sum_cons, recIds_append, pendLinkedIds_append,
        ← g3]
      have h3' : recIds rs1 + pendLinkedIds Δ1
          = pendLinkedIds (retry.filter (fun e => e.page == k)) := by
        rw [chunks4_flatten] at h3
        exact h3
      rw [← h3']
      abel
    · exact stFrame_trans g4 h4

/-- The drain section preserves the no-loss accounting: collected plus
link-carrying pending is invariant, and the page-level state is untouched. -/
theorem drain_pending_inv (env : Env) (items : List Item) (st : St) :
    recIds (drain_pending env items st).1
        + pendLinkedIds (drain_pending env items st).2.pending
      = recIds items + pendLinkedIds st.pending ∧
    stFrame (drain_pending env items st).2 st := by
  unfold drain_pending
  by_cases h : st.pending = []
  · rw [if_pos h]
    exact ⟨rfl, stFrame_rfl st⟩
  · rw [if_neg h]
    obtain ⟨Δ, rs, h1, h2, h3, h4⟩ :=
      drain_pages_delta env st.pending (drainKeys st.pending) items
        { st with pending := [] }
    have hpart := pendLinkedIds_partition (drainKeys st.pending) st.pending
      (drainKeys_nodup st.pending) (fun e he => mem_drainKeys he)
    constructor
    · rw [h1, h2, recIds_append]
      simp only [List.nil_append]
      rw [hpart] at h3
      rw [← h3]
      abel
    · exact stFrame_trans h4 ⟨rfl, rfl, rfl, rfl, rfl⟩

/-- Batch loop of a fresh page: no link-carrying item of any chunk is
lost — pause-skipped chunks go to pending whole, processed chunks split
between results and pending. -/
theorem process_page_batches_delta (env : Env) (page : Nat) :
    ∀ (cs : List (List Item)) (base : Nat) (items : List Item) (st : St),
      ∃ Δ rs, (process_page_batches env page cs base items st).1 = items ++ rs ∧
        (process_page_batches env page cs base items st).2.pending
          = st.pending ++ Δ ∧
        recIds rs + pendLinkedIds Δ = linkedIds cs.flatten ∧
        stFrame (process_page_batches env page cs base items st).2 st := by
  intro cs
  induction cs with
  | nil =>
    intro base items st
    exact ⟨[], [], by simp [process_page_batches], by simp [process_page_batches],
      by simp [recIds_nil, pendLinkedIds_nil, linkedIds_nil],
      by simp only [process_page_batches]; exact stFrame_rfl st⟩
  | cons c rest ih =>
    intro base items st
    obtain ⟨sch, hobs⟩ := observe_snd st
    rcases hp : observe st with ⟨sig, st1⟩
    rw [hp] at hobs
    simp only at hobs
    by_cases hblk : (sig.paused || sig.rate) = true
    · have hstep : process_page_batches env page (c :: rest) base items st
          = process_page_batches env page rest (base + c.length) items
              { st1 with pending := st1.pending ++ enumPend page base c,
                         pendLog := st1.pendLog ++ enumPend page base c } := by
        simp [process_page_batches, hp, hblk]
      rw [hstep]
      obtain ⟨Δ, rs, h1, h2, h3, h4⟩ :=
        ih (base + c.length) items
          { st1 with pending := st1.pending ++ enumPend page base c,
                     pendLog := st1.pendLog ++ enumPend page base c }
      refine ⟨enumPend page base c ++ Δ, rs, h1, ?_, ?_, ?_⟩
      · rw [h2]
        simp [hobs]
      · rw [List.flatten_cons, linkedIds_append, pendLinkedIds_append,
          pendLinkedIds_enumPend, ← h3]
        abel
      · refine stFrame_trans h4 ?_
        rw [hobs]
        exact ⟨rfl, rfl, rfl, rfl, rfl⟩
    · have hstep : process_page_batches env page (c :: rest) base items st
          = process_page_batches env page rest (base + c.length)
              (items ++ (process_item_batch env c page st1).1)
              (process_item_batch env c page st1).2 := by
        rcases hr : process_item_batch env c page st1 with ⟨rs0, st2⟩
        simp [process_page_batches, hp, hblk, hr]
      rw [hstep]
      obtain ⟨Δ0, hΔ0, hsum0, hfr0⟩ :=
        process_item_batch_go_delta env page c 0 st1
      obtain ⟨Δ, rs, h1, h2, h3, h4⟩ :=
        ih (base + c.length) (items ++ (process_item_batch env c page st1).1)
          (process_item_batch env c page st1).2
      refine ⟨Δ0 ++ Δ, (process_item_batch env c page st1).1 ++ rs, ?_, ?_, ?_, ?_⟩
      · rw [h1, List.append_assoc]
      · rw [h2]
        show _ = st.pending ++ (Δ0 ++ Δ)
        have : (process_item_batch env c page st1).2.pending
            = st.pending ++ Δ0 := by
          rw [process_item_batch, hΔ0, hobs]
        rw [this, List.append_assoc]
      · rw [List.flatten_cons, linkedIds_append, pendLinkedIds_append,
          recIds_append, ← h3]
        have hsum0' : recIds (process_item_batch env c page st1).1
            + pendLinkedIds Δ0 = linkedIds c := hsum0
        rw [← hsum0']
        abel
      · refine stFrame_trans h4 (stFrame_trans hfr0 ?_)
        rw [hobs]
        exact ⟨rfl, rfl, rfl, rfl, rfl⟩

/-! ## Toolbox: the final pending pass -/

theorem pfg_cons_some (env : Env) (e : PendingEntry) (rest : List PendingEntry)
    (items : List Item) (st st2 : St) (hl : e.item.hasLink = true)
    (hfd : fetch_item_details env e.item
        (waitWhile (fun s => s.paused || s.rate) st) = (some e.item, st2)) :
    process_final_go env (e :: rest) items st
      = process_final_go env rest (items ++ [e.item]) st2 := by
  simp [process_final_go, hl, hfd]

theorem pfg_cons_none (env : Env) (e : PendingEntry) (rest : List PendingEntry)
    (items : List Item) (st st2 : St) (hl : e.item.hasLink = true)
    (hfd : fetch_item_details env e.item
        (waitWhile (fun s => s.paused || s.rate) st) = (none, st2)) :
    process_final_go env (e :: rest) items st
      = process_final_go env rest items
          { st2 with pending := st2.pending ++ [e], pendLog := st2.pendLog ++ [e] } := by
  simp [process_final_go, hl, hfd]

theorem pfg_cons_nolink (env : Env) (e : PendingEntry)
    (rest : List PendingEntry) (items : List Item) (st : St)
    (hl : e.item.hasLink = false) :
    process_final_go env (e :: rest) items st
      = process_final_go env rest items
          (waitWhile (fun s => s.paused || s.rate) st) := by
  simp [process_final_go, hl]

/-- The final pass loses no link-carrying entry. -/
theorem process_final_go_delta (env : Env) :
    ∀ (entries : List PendingEntry) (items : List Item) (st : St),
      ∃ Δ rs, (process_final_go env entries items st).1 = items ++ rs ∧
        (process_final_go env entries items st).2.pending = st.pending ++ Δ ∧
        recIds rs + pendLinkedIds Δ = pendLinkedIds entries ∧
        stFrame (process_final_go env entries items st).2 st := by
  intro entries
  induction entries with
  | nil =>
    intro items st
    exact ⟨[], [], by simp [process_final_go], by simp [process_final_go],
      by simp [recIds_nil, pendLinkedIds_nil],
      by simp only [process_final_go]; exact stFrame_rfl st⟩
  | cons e rest ih =>
    intro items st
    set stw := waitWhile (fun s => s.paused || s.rate) st with hstw
    have hww : stw.pending = st.pending ∧ stFrame stw st := by
      rw [hstw]
      exact ⟨rfl, waitWhile_stFrame _ st⟩
    by_cases hl : e.item.hasLink = true
    · obtain ⟨hpd, hpl, hf, hres⟩ := fetch_item_details_spec env e.item stw
      rcases hfd : fetch_item_details env e.item stw with ⟨o, st2⟩
      rw [hfd] at hpd hpl hf hres
      simp only at hpd hpl hf hres
      rcases hres with h1 | h1
      · subst h1
        rw [pfg_cons_some env e rest items st st2 hl hfd]
        obtain ⟨Δ, rs, g1, g2, g3, g4⟩ := ih (items ++ [e.item]) st2
        refine ⟨Δ, e.item :: rs, ?_, ?_, ?_, ?_⟩
        · rw [g1, List.append_assoc]
          rfl
        · rw [g2, hpd, hww.1]
        · rw [recIds_cons, pendLinkedIds_cons, if_pos hl, add_assoc, g3]
        · exact stFrame_trans g4 (stFrame_trans hf hww.2)
      · subst h1
        rw [pfg_cons_none env e rest items st st2 hl hfd]
        obtain ⟨Δ, rs, g1, g2, g3, g4⟩ :=
          ih items { st2 with pending := st2.pending ++ [e], pendLog := st2.pendLog ++ [e] }
        refine ⟨e :: Δ, rs, g1, ?_, ?_, ?_⟩
        · rw [g2]
          simp [hpd, hww.1]
        · rw [pendLinkedIds_cons, if_pos hl, pendLinkedIds_cons, if_pos hl, ← g3]
          abel
        · refine stFrame_trans g4 (stFrame_trans ?_ (stFrame_trans hf hww.2))
          exact ⟨rfl, rfl, rfl, rfl, rfl⟩
    · simp only [Bool.not_eq_true] at hl
      rw [pfg_cons_nolink env e rest items st hl]
      obtain ⟨Δ, rs, g1, g2, g3, g4⟩ := ih items stw
      refine ⟨Δ, rs, g1, ?_, ?_, ?_⟩
      · rw [g2, hww.1]
      · rw [g3, pendLinkedIds_cons, if_neg (by simp [hl]), zero_add]
      · exact stFrame_trans g4 hww.2

/-- The whole final pass preserves the no-loss accounting. -/
theorem process_final_pending_items_inv (env : Env) (items : List Item) (st : St) :
    recIds (process_final_pending_items env items st).1
        + pendLinkedIds (process_final_pending_items env items st).2.pending
      = recIds items + pendLinkedIds st.pending ∧
    stFrame (process_final_pending_items env items st).2 st := by
  unfold process_final_pending_items
  by_cases h : st.pending = []
  · rw [if_pos h]
    exact ⟨rfl, stFrame_rfl st⟩
  · rw [if_neg h]
    obtain ⟨Δ, rs, h1, h2, h3, h4⟩ :=
      process_final_go_delta env st.pending items { st with pending := [] }
    constructor
    · rw [h1, h2, recIds_append]
      simp only [List.nil_append]
      rw [← h3]
      abel
    · exact stFrame_trans h4 ⟨rfl, rfl, rfl, rfl, rfl⟩

/-- The no-loss accounting is an invariant of the page-walking loop. -/
theorem fetch_workshop_items_go_inv (env : Env) :
    ∀ (fuel page : Nat) (items : List Item) (st : St),
      recIds items + pendLinkedIds st.pending = linkedIds st.discovered →
      recIds (fetch_workshop_items_go env fuel page items st).items
          + pendLinkedIds
              (fetch_workshop_items_go env fuel page items st).st.pending
        = linkedIds (fetch_workshop_items_go env fuel page items st).st.discovered := by
  intro fuel
  induction fuel with
  | zero =>
    intro page items st hInv
    simpa [fetch_workshop_items_go] using hInv
  | succ f ih =>
    intro page items st hInv
    rcases ho1 : observe st with ⟨sig1, st1⟩
    have h1 : st1.pending = st.pending ∧ st1.discovered = st.discovered := by
      obtain ⟨sch, h⟩ := observe_snd st
      rw [ho1] at h
      simp only at h
      rw [h]
      exact ⟨rfl, rfl⟩
    rcases ho2 : observe (if sig1.paused then waitWhile (fun s => s.paused) st1 else st1)
      with ⟨sig2, st3⟩
    have h3 : st3.pending = st.pending ∧ st3.discovered = st.discovered := by
      obtain ⟨sch, h⟩ :=
        observe_snd (if sig1.paused then waitWhile (fun s => s.paused) st1 else st1)
      rw [ho2] at h
      simp only at h
      rw [h]
      by_cases hp : sig1.paused <;> simp [hp, waitWhile, h1.1, h1.2]
    set st4 := if sig2.rate then waitWhile (fun s => s.rate) st3 else st3 with hst4
    have h4 : st4.pending = st.pending ∧ st4.discovered = st.discovered := by
      rw [hst4]
      by_cases hr : sig2.rate <;> simp [hr, waitWhile, h3.1, h3.2]
    rcases hd : drain_pending env items st4 with ⟨items1, st5⟩
    have hdr := drain_pending_inv env items st4
    rw [hd] at hdr
    simp only at hdr
    have hInv5 : recIds items1 + pendLinkedIds st5.pending
        = linkedIds st5.discovered := by
      rw [hdr.1, h4.1, hdr.2.2.2.2.1, h4.2]
      exact hInv
    simp only [fetch_workshop_items_go, ho1, ho2, ← hst4, hd]
    rcases hpr : env.pageRes st5.pageFetches with ws | code | _ | _
    · simp only [hpr]
      rcases ws with _ | ⟨w, ws2⟩
      · simp only [List.isEmpty_nil, if_true]
        rcases hf : process_final_pending_items env items1
            { st5 with pageFetches := st5.pageFetches + 1,
                       fetchLog := st5.fetchLog ++ [page],
                       sleepLog := st5.sleepLog ++ delayLog page,
                       discovered := st5.discovered ++ [] } with ⟨items2, st9⟩
        have hfi := process_final_pending_items_inv env items1
          { st5 with pageFetches := st5.pageFetches + 1,
                     fetchLog := st5.fetchLog ++ [page],
                     sleepLog := st5.sleepLog ++ delayLog page,
                     discovered := st5.discovered ++ [] }
        rw [hf] at hfi
        simp only at hfi
        simp only [hf]
        rw [hfi.1, hfi.2.2.2.2.1]
        simpa using hInv5
      · simp only [List.isEmpty_cons, Bool.false_eq_true, if_false]
        rcases hb : process_page_batches env page (chunks4 (w :: ws2)) 0 items1
            { st5 with pageFetches := st5.pageFetches + 1,
                       fetchLog := st5.fetchLog ++ [page],
                       sleepLog := st5.sleepLog ++ delayLog page,
                       discovered := st5.discovered ++ w :: ws2 } with ⟨items2, st9⟩
        obtain ⟨Δ, rs, b1, b2, b3, b4⟩ :=
          process_page_batches_delta env page (chunks4 (w :: ws2)) 0 items1
            { st5 with pageFetches := st5.pageFetches + 1,
                       fetchLog := st5.fetchLog ++ [page],
                       sleepLog := st5.sleepLog ++ delayLog page,
                       discovered := st5.discovered ++ w :: ws2 }
        rw [hb] at b1 b2 b4
        simp only at b1 b2 b4
        rw [chunks4_flatten] at b3
        simp only [hb]
        refine ih (page + 1) items2 _ ?_
        have hdisc : st9.discovered = st5.discovered ++ w :: ws2 := b4.2.2.2.1
        show recIds items2 + pendLinkedIds st9.pending = linkedIds st9.discovered
        rw [b1, b2, hdisc, recIds_append, linkedIds_append]
        show recIds items1 + recIds rs
            + pendLinkedIds (st5.pending ++ Δ)
          = linkedIds st5.discovered + linkedIds (w :: ws2)
        rw [pendLinkedIds_append, ← hInv5, ← b3]
        abel
    · simp only [hpr]
      by_cases hc : code = 429
      · rw [if_pos hc]
        exact ih page items1 _ hInv5
      · rw [if_neg hc]
        exact hInv5
    · simp only [hpr]
      exact ih page items1 _ hInv5
    · simp only [hpr]
      exact hInv5

/-- C1 (amended): for every run (any oracles, any pause schedule, any
fuel), every *link-carrying* item discovered on a fetched listing page ends
the run either among the collected records or among the still-pending
entries, counted with multiplicity — collected plus link-carrying pending
equals link-carrying discovered, as identity multisets.  Items discovered
without a detail link are not covered: the source silently drops them (see
the counterexample). -/
theorem C1_amended (env : Env) (sched : List Sig) (fuel : Nat) :
    recIds (fetch_workshop_items env sched fuel).items
        + pendLinkedIds (fetch_workshop_items env sched fuel).st.pending
      = linkedIds (fetch_workshop_items env sched fuel).st.discovered :=
  fetch_workshop_items_go_inv env fuel 1 [] (initSt sched)
    (by simp [initSt, recIds_nil, pendLinkedIds_nil, linkedIds_nil])

/-- Completed pages are always the consecutive range `1, 2, …`: the cursor
only advances after a non-empty page is dispatched, so no page is skipped
and none is completed twice. -/
theorem fetch_workshop_items_go_pages (env : Env) :
    ∀ (fuel page : Nat) (items : List Item) (st : St),
      st.pagesDone = List.range' 1 st.pagesDone.length →
      page = 1 + st.pagesDone.length →
      (fetch_workshop_items_go env fuel page items st).st.pagesDone
        = List.range' 1
            (fetch_workshop_items_go env fuel page items st).st.pagesDone.length := by
  intro fuel
  induction fuel with
  | zero =>
    intro page items st hpd _
    simpa [fetch_workshop_items_go] using hpd
  | succ f ih =>
    intro page items st hpd hpage
    rcases ho1 : observe st with ⟨sig1, st1⟩
    have h1 : st1.pagesDone = st.pagesDone := by
      obtain ⟨sch, h⟩ := observe_snd st
      rw [ho1] at h
      simp only at h
      rw [h]
    rcases ho2 : observe (if sig1.paused then waitWhile (fun s => s.paused) st1 else st1)
      with ⟨sig2, st3⟩
    have h3 : st3.pagesDone = st.pagesDone := by
      obtain ⟨sch, h⟩ :=
        observe_snd (if sig1.paused then waitWhile (fun s => s.paused) st1 else st1)
      rw [ho2] at h
      simp only at h
      rw [h]
      by_cases hp : sig1.paused <;> simp [hp, waitWhile, h1]
    set st4 := if sig2.rate then waitWhile (fun s => s.rate) st3 else st3 with hst4
    have h4 : st4.pagesDone = st.pagesDone := by
      rw [hst4]
      by_cases hr : sig2.rate <;> simp [hr, waitWhile, h3]
    rcases hd : drain_pending env items st4 with ⟨items1, st5⟩
    have hdr := drain_pending_inv env items st4
    rw [hd] at hdr
    simp only at hdr
    have h5 : st5.pagesDone = st.pagesDone := by
      rw [hdr.2.2.2.1, h4]
    simp only [fetch_workshop_items_go, ho1, ho2, ← hst4, hd]
    rcases hpr : env.pageRes st5.pageFetches with ws | code | _ | _
    · simp only [hpr]
      rcases ws with _ | ⟨w, ws2⟩
      · simp only [List.isEmpty_nil, if_true]
        rcases hf : process_final_pending_items env items1
            { st5 with pageFetches := st5.pageFetches + 1,
                       fetchLog := st5.fetchLog ++ [page],
                       sleepLog := st5.sleepLog ++ delayLog page,
                       discovered := st5.discovered ++ [] } with ⟨items2, st9⟩
        have hfi := process_final_pending_items_inv env items1
          { st5 with pageFetches := st5.pageFetches + 1,
                     fetchLog := st5.fetchLog ++ [page],
                     sleepLog := st5.sleepLog ++ delayLog page,
                     discovered := st5.discovered ++ [] }
        rw [hf] at hfi
        simp only at hfi
        simp only [hf]
        have : st9.pagesDone = st.pagesDone := by
          rw [hfi.2.2.2.1]
          exact h5
        rw [this]
        exact hpd
      · simp only [List.isEmpty_cons, Bool.false_eq_true, if_false]
        rcases hb : process_page_batches env page (chunks4 (w :: ws2)) 0 items1
            { st5 with pageFetches := st5.pageFetches + 1,
                       fetchLog := st5.fetchLog ++ [page],
                       sleepLog := st5.sleepLog ++ delayLog page,
                       discovered := st5.discovered ++ w :: ws2 } with ⟨items2, st9⟩
        obtain ⟨Δ, rs, b1, b2, b3, b4⟩ :=
          process_page_batches_delta env page (chunks4 (w :: ws2)) 0 items1
            { st5 with pageFetches := st5.pageFetches + 1,
                       fetchLog := st5.fetchLog ++ [page],
                       sleepLog := st5.sleepLog ++ delayLog page,
                       discovered := st5.discovered ++ w :: ws2 }
        rw [hb] at b4
        simp only at b4
        simp only [hb]
        have h9 : st9.pagesDone = st.pagesDone := by
          rw [b4.2.2.1]
          exact h5
        refine ih (page + 1) items2 _ ?_ ?_
        · show st9.pagesDone ++ [page] = List.range' 1 (st9.pagesDone ++ [page]).length
          rw [h9]
          have hlen : (st.pagesDone ++ [page]).length = st.pagesDone.length + 1 := by
            simp
          rw [hlen, @List.range'_concat 1 1 st.pagesDone.length, ← hpd]
          have hp2 : 1 + 1 * st.pagesDone.length = page := by omega
          rw [hp2]
        · show page + 1 = 1 + (st9.pagesDone ++ [page]).length
          rw [h9]
          simp only [List.length_append, List.length_cons, List.length_nil]
          omega
    · simp only [hpr]
      by_cases hc : code = 429
      · rw [if_pos hc]
        refine ih page items1 _ ?_ ?_
        · show st5.pagesDone = List.range' 1 st5.pagesDone.length
          rw [h5]
          exact hpd
        · show page = 1 + st5.pagesDone.length
          rw [h5]
          exact hpage
      · rw [if_neg hc]
        show st5.pagesDone = List.range' 1 st5.pagesDone.length
        rw [h5]
        exact hpd
    · simp only [hpr]
      refine ih page items1 _ ?_ ?_
      · show st5.pagesDone = List.range' 1 st5.pagesDone.length
        rw [h5]
        exact hpd
      · show page = 1 + st5.pagesDone.length
        rw [h5]
        exact hpage
    · simp only [hpr]
      show st5.pagesDone = List.range' 1 st5.pagesDone.length
      rw [h5]
      exact hpd

/-! ## Claim C4 — rate limiting retries the same page -/

/-- C4: (1) `check_for_errors` on the exact message the page loop enqueues
for an HTTP 429 sets `rate_limit_detected` (and auto-pauses); (2) in every
run, the completed pages form the consecutive range `1, 2, …` — no page is
skipped and none is completed twice; (3) in the concrete rate-limit
scenario, page 2's first fetch is rejected with 429, the cursor stays at 2
across the pause, page 2 is fetched again after the simulated resume and
succeeds — the fetch log is `[1, 2, 2, 3]`, pages 1-2 are each completed
exactly once, and both items are collected. -/
theorem C4_rate_limit_retries_same_page :
    check_for_errors [err429 2] ⟨false, false, false, false⟩
      = ⟨true, true, true, true⟩ ∧
    (∀ (env : Env) (sched : List Sig) (fuel : Nat),
      (fetch_workshop_items env sched fuel).st.pagesDone
        = List.range' 1 (fetch_workshop_items env sched fuel).st.pagesDone.length) ∧
    (fetch_workshop_items envRateLimited schedRateLimited 6).term = .success ∧
    (fetch_workshop_items envRateLimited schedRateLimited 6).st.fetchLog
      = [1, 2, 2, 3] ∧
    (fetch_workshop_items envRateLimited schedRateLimited 6).st.pagesDone
      = [1, 2] ∧
    (fetch_workshop_items envRateLimited schedRateLimited 6).items
      = [linkedItem 1, linkedItem 2] ∧
    (fetch_workshop_items envRateLimited schedRateLimited 6).st.errors
      = [err429 2] := by
  refine ⟨by decide, ?_, by decide, by decide, by decide, by decide, by decide⟩
  intro env sched fuel
  exact fetch_workshop_items_go_pages env fuel 1 [] (initSt sched)
    (by simp [initSt]) (by simp [initSt])

/-! ## Toolbox: deterministic reduction under explicit schedules -/

theorem observe_clear (st : St) (h : st.sched = []) :
    observe st = (⟨false, false⟩, st) := by
  cases st
  subst h
  rfl

theorem observe_cons (st : St) (sig : Sig) (rest : List Sig)
    (h : st.sched = sig :: rest) :
    observe st = (sig, { st with sched := rest }) := by
  cases st
  subst h
  rfl

theorem drain_pending_nil (env : Env) (items : List Item) (st : St)
    (h : st.pending = []) : drain_pending env items st = (items, st) := by
  unfold drain_pending
  rw [if_pos h]

theorem fetch_item_details_clear (env : Env) (it : Item) (st : St)
    (h : st.sched = []) :
    (fetch_item_details env it st).2.sched = [] ∧
    (fetch_item_details env it st).2.detailFetches = st.detailFetches + 1 ∧
    (fetch_item_details env it st).2.pending = st.pending := by
  simp only [fetch_item_details, observe_clear st h]
  split_ifs <;> simp_all

/-! ## Claim C6 — fatal page errors return the partial results -/

/-- C6: a listing-page fetch failing with a non-429 HTTP status terminates
the run at once — the outcome carries exactly the records accumulated so
far, the failing page is fetched once and never retried, and the error is
reported.  Stated generally for any loop state with a quiet schedule and an
empty retry queue, together with the concrete Scenario D: pages 1 and 2
succeed, page 3 fails with HTTP 500, and the result holds exactly the three
records of pages 1-2 with fetch log `[1, 2, 3]`. -/
theorem C6_fatal_keeps_results :
    (∀ (env : Env) (fuel page code : Nat) (items : List Item) (st : St),
      st.sched = [] → st.pending = [] →
      env.pageRes st.pageFetches = .httpErr code → code ≠ 429 →
      (fetch_workshop_items_go env (fuel + 1) page items st).term = .fatal ∧
      (fetch_workshop_items_go env (fuel + 1) page items st).items = items ∧
      (fetch_workshop_items_go env (fuel + 1) page items st).st.fetchLog
        = st.fetchLog ++ [page] ∧
      (fetch_workshop_items_go env (fuel + 1) page items st).st.errors
        = st.errors ++ [errHttp code page]) ∧
    (fetch_workshop_items envFatalPage3 [] 6).term = .fatal ∧
    (fetch_workshop_items envFatalPage3 [] 6).items
      = [linkedItem 1, linkedItem 2, linkedItem 3] ∧
    (fetch_workshop_items envFatalPage3 [] 6).st.fetchLog = [1, 2, 3] ∧
    (fetch_workshop_items envFatalPage3 [] 6).st.pagesDone = [1, 2] := by
  refine ⟨?_, by decide, by decide, by decide, by decide⟩
  intro env fuel page code items st hs hp henv hc
  simp only [fetch_workshop_items_go, observe_clear st hs, Bool.false_eq_true,
    if_false, drain_pending_nil env items st hp, henv, if_neg hc]
  exact ⟨trivial, trivial, trivial, trivial⟩

/-- Closed instance of the general part of `C6_fatal_keeps_results`. -/
theorem C6_fatal_keeps_results_witness :
    (fetch_workshop_items_go
        ({ pageRes := fun _ => .httpErr 500, detailOk := fun _ => true } : Env)
        1 3 [linkedItem 9] (initSt [])).term = .fatal ∧
    (fetch_workshop_items_go
        ({ pageRes := fun _ => .httpErr 500, detailOk := fun _ => true } : Env)
        1 3 [linkedItem 9] (initSt [])).items = [linkedItem 9] :=
  ⟨(C6_fatal_keeps_results.1
      ({ pageRes := fun _ => .httpErr 500, detailOk := fun _ => true } : Env)
      0 3 500 [linkedItem 9] (initSt []) rfl rfl rfl (by decide)).1,
   (C6_fatal_keeps_results.1
      ({ pageRes := fun _ => .httpErr 500, detailOk := fun _ => true } : Env)
      0 3 500 [linkedItem 9] (initSt []) rfl rfl rfl (by decide)).2.1⟩

/-! ## Claim C7 — transient errors, amended -/

/-- C7 (amended): on a transient (non-HTTP) request failure the worker
records the error and re-enters the loop at the *same* page — the cursor is
not advanced.  The `while pause_event.is_set()` wait is vacuous when no
pause is active: with a quiet schedule the retry proceeds immediately, with
no operator resume involved (see the counterexample for the concrete run). -/
theorem C7_amended (env : Env) (fuel page : Nat) (items : List Item) (st : St)
    (hs : st.sched = []) (hp : st.pending = [])
    (henv : env.pageRes st.pageFetches = .netErr) :
    fetch_workshop_items_go env (fuel + 1) page items st
      = fetch_workshop_items_go env fuel page items
          { st with pageFetches := st.pageFetches + 1,
                    fetchLog := st.fetchLog ++ [page],
                    sleepLog := st.sleepLog ++ delayLog page,
                    errors := st.errors ++ [errNet page] } := by
  simp only [fetch_workshop_items_go, observe_clear st hs, Bool.false_eq_true,
    if_false, drain_pending_nil env items st hp, henv]
  congr 1
  simp [waitWhile, dropObs, hs]

/-- Closed instance of `C7_amended`: the transient failure of page 1 is
followed, with no resume, by a retry of page 1 that finds no items. -/
theorem C7_amended_witness :
    fetch_workshop_items_go envTransient 2 1 [] (initSt [])
      = fetch_workshop_items_go envTransient 1 1 []
          { initSt [] with pageFetches := 1, fetchLog := [1],
                           sleepLog := delayLog 1, errors := [errNet 1] } := by
  have h := C7_amended envTransient 1 1 [] (initSt []) rfl rfl rfl
  simpa [initSt] using h

/-- Under a quiet schedule the final pass performs exactly one detail-fetch
attempt per link-carrying entry, and the entries it re-reports as pending
are a sub-sequence of its input, all link-carrying. -/
theorem process_final_go_clear (env : Env) :
    ∀ (entries : List PendingEntry) (items : List Item) (st : St),
      st.sched = [] →
      (process_final_go env entries items st).2.sched = [] ∧
      (process_final_go env entries items st).2.detailFetches
        = st.detailFetches
          + (entries.filter (fun e => e.item.hasLink)).length ∧
      ∃ post, (process_final_go env entries items st).2.pending
          = st.pending ++ post ∧
        post.Sublist entries ∧ (∀ e ∈ post, e.item.hasLink = true) := by
  intro entries
  induction entries with
  | nil =>
    intro items st hs
    exact ⟨hs, by simp [process_final_go], [], by simp [process_final_go],
      List.nil_sublist [], by simp⟩
  | cons e rest ih =>
    intro items st hs
    have hww : waitWhile (fun s => s.paused || s.rate) st = st :=
      waitWhile_nil _ st hs
    by_cases hl : e.item.hasLink = true
    · obtain ⟨hsch2, hdf2, hpend2⟩ := fetch_item_details_clear env e.item st hs
      obtain ⟨hpd, hpl, hf, hres⟩ := fetch_item_details_spec env e.item st
      rcases hfd : fetch_item_details env e.item st with ⟨o, st2⟩
      rw [hfd] at hsch2 hdf2 hpend2 hres
      simp only at hsch2 hdf2 hpend2 hres
      rcases hres with h1 | h1
      · subst h1
        rw [pfg_cons_some env e rest items st st2 hl (by rw [hww]; exact hfd)]
        obtain ⟨g1, g2, post, g3, g4, g5⟩ := ih (items ++ [e.item]) st2 hsch2
        refine ⟨g1, ?_, post, ?_, g4.cons e, g5⟩
        · rw [g2, hdf2, List.filter_cons, if_pos hl]
          simp only [List.length_cons]
          omega
        · rw [g3, hpend2]
      · subst h1
        rw [pfg_cons_none env e rest items st st2 hl (by rw [hww]; exact hfd)]
        obtain ⟨g1, g2, post, g3, g4, g5⟩ :=
          ih items { st2 with pending := st2.pending ++ [e],
                              pendLog := st2.pendLog ++ [e] } hsch2
        refine ⟨g1, ?_, e :: post, ?_, g4.cons₂ e, ?_⟩
        · rw [g2, hdf2, List.filter_cons, if_pos hl]
          simp only [List.length_cons]
          omega
        · rw [g3]
          simp [hpend2]
        · intro x hx
          rcases List.mem_cons.mp hx with rfl | hx2
          · exact hl
          · exact g5 x hx2
    · simp only [Bool.not_eq_true] at hl
      rw [pfg_cons_nolink env e rest items st hl, hww]
      obtain ⟨g1, g2, post, g3, g4, g5⟩ := ih items st hs
      refine ⟨g1, ?_, post, g3, g4.cons e, g5⟩
      rw [g2, List.filter_cons, if_neg (by simp [hl])]

/-- C5 (amended): a listing page returning zero items terminates the run
with `Success` (stated for any loop state with a quiet schedule); before
completion the final pass gives each still-pending *link-carrying* entry
exactly one further detail-fetch attempt, the entries still pending
afterwards are a sub-sequence of the input — each a link-carrying entry
that failed again, reported rather than retried — and no link-carrying
entry is lost.  Pending entries without a detail link are silently dropped
by the final pass (see the counterexample). -/
theorem C5_amended :
    (∀ (env : Env) (fuel page : Nat) (items : List Item) (st : St),
      st.sched = [] → env.pageRes st.pageFetches = .ok [] →
      (fetch_workshop_items_go env (fuel + 1) page items st).term = .success) ∧
    (∀ (env : Env) (items : List Item) (st : St), st.sched = [] →
      ((process_final_pending_items env items st).2.detailFetches
          = st.detailFetches
            + (st.pending.filter (fun e => e.item.hasLink)).length ∧
        (process_final_pending_items env items st).2.pending.Sublist st.pending ∧
        ∀ e ∈ (process_final_pending_items env items st).2.pending,
          e.item.hasLink = true)) ∧
    (∀ (env : Env) (items : List Item) (st : St),
      recIds (process_final_pending_items env items st).1
          + pendLinkedIds (process_final_pending_items env items st).2.pending
        = recIds items + pendLinkedIds st.pending) := by
  refine ⟨?_, ?_, fun env items st => (process_final_pending_items_inv env items st).1⟩
  · intro env fuel page items st hs henv
    rcases hd : drain_pending env items st with ⟨items1, st5⟩
    have hdr := drain_pending_inv env items st
    rw [hd] at hdr
    simp only at hdr
    have hpf : st5.pageFetches = st.pageFetches := hdr.2.1
    simp only [fetch_workshop_items_go, observe_clear st hs, Bool.false_eq_true,
      if_false, hd, hpf, henv, List.isEmpty_nil, if_true]
  · intro env items st hs
    unfold process_final_pending_items
    by_cases hpend : st.pending = []
    · rw [if_pos hpend]
      refine ⟨by simp [hpend], by rw [hpend], ?_⟩
      simp [hpend]
    · rw [if_neg hpend]
      obtain ⟨g1, g2, post, g3, g4, g5⟩ :=
        process_final_go_clear env st.pending items { st with pending := [] } hs
      refine ⟨g2, ?_, ?_⟩
      · rw [g3]
        simpa using g4
      · intro e he
        rw [g3] at he
        simp only [List.nil_append] at he
        exact g5 e he

/-- Closed instance of `C5_amended` on a concrete state with one
link-carrying and one link-less pending entry. -/
theorem C5_amended_witness :
    (fetch_workshop_items_go envEmptyPages 1 1 [] (initSt [])).term = .success ∧
    (process_final_pending_items envEmptyPages [] stFinalDemo).2.detailFetches
      = stFinalDemo.detailFetches
        + (stFinalDemo.pending.filter (fun e => e.item.hasLink)).length ∧
    (process_final_pending_items envEmptyPages [] stFinalDemo).2.pending.Sublist
      stFinalDemo.pending ∧
    recIds (process_final_pending_items envEmptyPages [] stFinalDemo).1
        + pendLinkedIds
            (process_final_pending_items envEmptyPages [] stFinalDemo).2.pending
      = recIds [] + pendLinkedIds stFinalDemo.pending :=
  ⟨C5_amended.1 envEmptyPages 0 1 [] (initSt []) rfl rfl,
   (C5_amended.2.1 envEmptyPages [] stFinalDemo rfl).1,
   (C5_amended.2.1 envEmptyPages [] stFinalDemo rfl).2.1,
   C5_amended.2.2 envEmptyPages [] stFinalDemo⟩

/-- C2 (amended): the enqueue-on-pause behaviour lives at *batch*
granularity, not item granularity.  (1) If the pause controller is observed
blocking at the pre-batch check, the entire batch is skipped and every one
of its items is appended to the pending queue exactly once, in order, as
`(item, page, base+j)` entries — nothing is processed and nothing is lost
or double-counted; (2) the enumeration introduces each batch item exactly
once; (3) a blocking observation at an *item's* pre-check merely consumes
the observation and waits — processing continues identically once the
pause clears, and no item is enqueued by the wait (see the
counterexample). -/
theorem C2_amended :
    (∀ (env : Env) (page : Nat) (c : List Item) (base : Nat)
        (items : List Item) (st : St) (sig : Sig) (rest : List Sig),
      st.sched = sig :: rest → (sig.paused || sig.rate) = true →
      process_page_batches env page [c] base items st
        = (items, { st with sched := rest,
                            pending := st.pending ++ enumPend page base c,
                            pendLog := st.pendLog ++ enumPend page base c })) ∧
    (∀ (page base : Nat) (c : List Item),
      (enumPend page base c).map (fun e => e.item) = c) ∧
    (∀ (env : Env) (page : Nat) (it : Item) (more : List Item) (i : Nat)
        (st : St) (sig : Sig) (rest : List Sig),
      st.sched = sig :: rest → (sig.paused || sig.rate) = true →
      process_item_batch_go env page (it :: more) i st
        = process_item_batch_go env page (it :: more) i
            { st with sched := rest }) := by
  refine ⟨?_, fun page base c => enumPend_items page base c, ?_⟩
  · intro env page c base items st sig rest hs hblk
    simp [process_page_batches, observe_cons st sig rest hs, hblk]
  · intro env page it more i st sig rest hs hblk
    have hww : waitWhile (fun s => s.paused || s.rate) st
        = waitWhile (fun s => s.paused || s.rate) { st with sched := rest } := by
      simp [waitWhile, dropObs, hs, hblk]
    simp only [process_item_batch_go]
    rw [hww]

/-- Closed instance of `C2_amended`: a pause observed at the pre-batch
check sends the whole 4-item batch to pending. -/
theorem C2_amended_witness :
    process_page_batches envEmptyPages 1
        [[linkedItem 1, linkedItem 2, linkedItem 3, linkedItem 4]] 0 []
        (initSt [obsPaused])
      = ([], { initSt [obsPaused] with
                 sched := [],
                 pending := enumPend 1 0
                   [linkedItem 1, linkedItem 2, linkedItem 3, linkedItem 4],
                 pendLog := enumPend 1 0
                   [linkedItem 1, linkedItem 2, linkedItem 3, linkedItem 4] }) := by
  have h := C2_amended.1 envEmptyPages 1
    [linkedItem 1, linkedItem 2, linkedItem 3, linkedItem 4] 0 []
    (initSt [obsPaused]) obsPaused [] rfl (by decide)
  simpa [initSt] using h
